import Mathlib

/-!
Verification of the SentinelOS text-intelligence pipeline
(`sentinel_backend/intelligence.py` and the ingest orchestration of
`sentinel_backend/main.py`).

Python strings are modelled as `List Char` (ASCII texts; Python's `str.lower`,
`str.upper`, `str.strip` and the `re` character classes agree with the ASCII
models used here on such texts).  Regular-expression searches are modelled by
explicit left-to-right scanners that reproduce `re.search` / `re.findall`
semantics (leftmost match, greedy quantifiers with the backtracking the
concrete patterns allow).
-/

abbrev Str := List Char

/-- Python `str.lower` (ASCII). Source: `_low` in intelligence.py. -/
def low (s : Str) : Str := s.map Char.toLower

/-- Python `str.upper` (ASCII). -/
def upperStr (s : Str) : Str := s.map Char.toUpper

/-- Whitespace recognised by Python's `str.strip` and `\s` (ASCII part). -/
def isPySpace (c : Char) : Bool :=
  c == ' ' || c == '\t' || c == '\n' || c == '\r' || c == '\x0b' || c == '\x0c'

/-- Word character for the regex `\b` boundary (`[a-zA-Z0-9_]`, ASCII part of `\w`). -/
def isWordChar (c : Char) : Bool := c.isAlphanum || c == '_'

/-- Python `str.strip()` with no arguments. -/
def pyStrip (s : Str) : Str :=
  ((s.dropWhile isPySpace).reverse.dropWhile isPySpace).reverse

/-- Python `str.capitalize()`: first char uppercased, rest lowercased. -/
def pyCapitalize : Str → Str
  | [] => []
  | c :: r => c.toUpper :: r.map Char.toLower

/-- Python substring containment `needle in hay`. -/
def containsSub (nd : Str) : Str → Bool
  | [] => nd.isPrefixOf []
  | c :: rest => nd.isPrefixOf (c :: rest) || containsSub nd rest

/-- Python truthiness of an optional string (`None` and `""` are falsy). -/
def pyTruthyOpt : Option Str → Bool
  | none => false
  | some s => !(s.isEmpty)

/-- Python `a or b` on an optional string `a` (falsy `a` selects `b`). -/
def pyOr (a b : Option Str) : Option Str :=
  match a with
  | some s => if s.isEmpty then b else some s
  | none => b

/-- How a Python f-string renders an optional string (`None` prints as "None"). -/
def pyShow : Option Str → Str
  | none => "None".toList
  | some s => s

-- ---------------- weekday search (`_find_day`) ----------------

/-- The weekday table `DAYS` of intelligence.py. -/
def DAYS : List Str :=
  ["monday".toList, "tuesday".toList, "wednesday".toList, "thursday".toList,
   "friday".toList, "saturday".toList, "sunday".toList]

/-- `\b` after a match: end of string or a non-word character. -/
def boundaryAfter : Str → Bool
  | [] => true
  | c :: _ => !isWordChar c

/-- Does some weekday match at the head of `s` with a `\b` boundary after it? -/
def dayHere (s : Str) : Option Str :=
  DAYS.find? (fun d => d.isPrefixOf s && boundaryAfter (s.drop d.length))

/-- Left-to-right scan of `re.search(r"\b(monday|...|sunday)\b", t)`.
`prevW` records whether the character before the current suffix is a word
character (so that `\b` holds at the suffix start iff `prevW = false`;
every weekday starts with a word character). -/
def findDayAux : Bool → Str → Option Str
  | _, [] => none
  | prevW, c :: rest =>
    if prevW then findDayAux (isWordChar c) rest
    else
      match dayHere (c :: rest) with
      | some d => some d
      | none => findDayAux (isWordChar c) rest

/-- `_find_day` of intelligence.py: leftmost word-bounded weekday, capitalized. -/
def find_day (t : Str) : Option Str := (findDayAux false t).map pyCapitalize

-- ---------------- priority pattern ----------------

/-- The alternatives of the priority group `(p0|p1|p2|high|medium|low)`. -/
def prioAlts : List Str :=
  ["p0".toList, "p1".toList, "p2".toList, "high".toList, "medium".toList, "low".toList]

/-- First alternative of the priority group matching at the head of `s`
(no boundary after the group in the pattern). -/
def tryPrioGroup (s : Str) : Option Str := prioAlts.find? (fun a => a.isPrefixOf s)

/-- Tail of the source pattern after the literal `priority`:
`\s*[:\-]?\s*(p0|p1|p2|high|medium|low)`.  The two `\s*` around the optional
separator make the language "spaces, optional one separator, spaces", and if
the branch that consumes a separator fails at the group, `re` backtracks to
the separator-less branch, whose group position is right after the first
space run. -/
def prioAfter (s : Str) : Option Str :=
  match s.dropWhile isPySpace with
  | c :: rest =>
    if c == ':' || c == '-' then
      match tryPrioGroup (rest.dropWhile isPySpace) with
      | some g => some g
      | none => tryPrioGroup (c :: rest)
    else tryPrioGroup (c :: rest)
  | [] => tryPrioGroup []

/-- `re.search(r"priority\s*[:\-]?\s*(p0|p1|p2|high|medium|low)", t)`:
scan for the leftmost occurrence of the literal `priority` whose tail parse
succeeds, returning the captured group. -/
def findPriority : Str → Option Str
  | [] => none
  | c :: rest =>
    if ("priority".toList).isPrefixOf (c :: rest) then
      match prioAfter ((c :: rest).drop 8) with
      | some g => some g
      | none => findPriority rest
    else findPriority rest

/-- Modelled from the spec: the pattern as quoted by the specification and by
claim C8, `priority[:-]?\s*(p0|p1|p2|high|medium|low)` — note the missing
`\s*` between the literal and the optional separator, compared with the
source pattern embedded in `findPriority`. -/
def prioAfterClaim (s : Str) : Option Str :=
  match s with
  | c :: rest =>
    if c == ':' || c == '-' then
      match tryPrioGroup (rest.dropWhile isPySpace) with
      | some g => some g
      | none => tryPrioGroup (s.dropWhile isPySpace)
    else tryPrioGroup (s.dropWhile isPySpace)
  | [] => tryPrioGroup []

/-- Modelled from the spec: search for the claim-C8 pattern
`priority[:-]?\s*(p0|p1|p2|high|medium|low)`. -/
def findPriorityClaim : Str → Option Str
  | [] => none
  | c :: rest =>
    if ("priority".toList).isPrefixOf (c :: rest) then
      match prioAfterClaim ((c :: rest).drop 8) with
      | some g => some g
      | none => findPriorityClaim rest
    else findPriorityClaim rest

-- ---------------- truth extraction ----------------

/-- One extracted truth update `{"key": ..., "value": ...}`. -/
structure Truth where
  key : Str
  value : Str
deriving DecidableEq, Repr

/-- `extract_truths` of intelligence.py. -/
def extract_truths (text : Str) : List Truth :=
  let t := low text
  (if containsSub ("launch".toList) t then
    match find_day t with
    | some day => [⟨"launch_date".toList, day⟩]
    | none => []
   else [])
  ++ (match findPriority t with
      | some g => [⟨"priority".toList, upperStr g⟩]
      | none => [])
  ++ (if [("we decided".toList), ("decision".toList), ("approved".toList),
          ("finalized".toList), ("confirmed".toList)].any (fun kw => containsSub kw t) then
        [⟨"decision_status".toList, "UPDATED".toList⟩]
      else [])
  ++ (if containsSub ("scope".toList) t &&
         [("change".toList), ("changed".toList), ("reduced".toList),
          ("expanded".toList), ("updated".toList)].any (fun kw => containsSub kw t) then
        [⟨"scope".toList, "CHANGED".toList⟩]
      else [])

-- ---------------- task extraction ----------------

/-- One extracted task draft (the dict built by `extract_tasks`). -/
structure TaskItem where
  task : Str
  status : Option Str
  deadline : Option Str
  owner : Option Str
  dependency : Option Str
deriving DecidableEq, Repr

/-- The shared deadline slot of `extract_tasks` (its first block). -/
def sharedDeadline (t : Str) : Option Str :=
  if containsSub ("tomorrow".toList) t then some ("Tomorrow".toList)
  else if containsSub ("today".toList) t then some ("Today".toList)
  else if containsSub ("eod".toList) t || containsSub ("end of day".toList) t then
    some ("EOD".toList)
  else
    match find_day t with
    | some day =>
      if containsSub ("by".toList) t || containsSub ("deadline".toList) t then some day
      else none
    | none => none

/-- Character class `[a-z0-9 \-_]` of the dependency-capture patterns. -/
def isDepChar (c : Char) : Bool :=
  c.isLower || c.isDigit || c == ' ' || c == '-' || c == '_'

/-- `re.search(lit ++ "([a-z0-9 \-_]+)", t)`: leftmost occurrence of the
literal followed by a nonempty greedy run of class characters; a position
where the literal matches but the group is empty is skipped and the scan
continues, as `re.search` does. -/
def findAfterLit (lit : Str) : Str → Option Str
  | [] => none
  | c :: rest =>
    if lit.isPrefixOf (c :: rest) then
      let g := ((c :: rest).drop lit.length).takeWhile isDepChar
      if g.isEmpty then findAfterLit lit rest else some g
    else findAfterLit lit rest

/-- The dependency phrase of the blocker branch: `dep` starts as `None`, is
set from `blocked by <phrase>` (stripped) when that matches, and is replaced
from `waiting on <phrase>` when `dep` is still falsy (`None` or `""`). -/
def findDep (t : Str) : Option Str :=
  let dep1 := (findAfterLit ("blocked by ".toList) t).map pyStrip
  let dep2 := (findAfterLit ("waiting on ".toList) t).map pyStrip
  match dep1 with
  | some d => if d.isEmpty then (match dep2 with | some d2 => some d2 | none => some d) else some d
  | none => dep2

/-- Blocker branch of `extract_tasks`. -/
def blockerTasks (t : Str) (dl : Option Str) : List TaskItem :=
  if containsSub ("blocked".toList) t || containsSub ("waiting on".toList) t ||
     containsSub ("depends on".toList) t then
    [⟨"Resolve blocker / dependency".toList, some ("blocked".toList), dl, none, findDep t⟩]
  else []

/-- Launch branch of `extract_tasks`. -/
def launchTasks (t : Str) (dl : Option Str) : List TaskItem :=
  if containsSub ("launch".toList) t then
    [⟨"Launch readiness".toList,
      (if containsSub ("in progress".toList) t || containsSub ("progress".toList) t then
        some ("in_progress".toList) else none),
      pyOr (find_day t) dl,
      (if containsSub ("pm".toList) t || containsSub ("project manager".toList) t then
        some ("Project Manager".toList) else none),
      none⟩]
  else []

/-- Submission/deliverable branch of `extract_tasks`. -/
def submissionTasks (t : Str) (dl : Option Str) : List TaskItem :=
  if [("submit".toList), ("submission".toList), ("deliver".toList),
      ("deliverable".toList), ("deadline".toList)].any (fun kw => containsSub kw t) then
    [⟨"Prepare submission / deliverable".toList, none, dl, none, none⟩]
  else []

-- owner rule: `re.search(r"(assigned to|owner is|handled by|owned by)\s+([a-zA-Z ]{2,40})", text)`
-- (note: matched against the ORIGINAL text, not the lowercased copy)

/-- Character class `[a-zA-Z ]` of the owner name group. -/
def isNameChar (c : Char) : Bool := c.isAlpha || c == ' '

/-- The name group `([a-zA-Z ]{2,40})` at the head of `s`: greedy, capped at
40, must capture at least 2 characters. -/
def ownerGroupAt (s : Str) : Option Str :=
  let g := (s.takeWhile isNameChar).take 40
  if 2 ≤ g.length then some g else none

/-- Greedy `\s+` before the name group, with the backtracking `re` performs:
consume as much whitespace as possible, and on group failure give back
trailing whitespace one character at a time (a given-back space can start the
group, since `' '` is in `[a-zA-Z ]`). At least one whitespace character has
already been consumed by the caller. -/
def ownerSpaces : Str → Option Str
  | [] => none
  | c :: rest =>
    if isPySpace c then
      match ownerSpaces rest with
      | some g => some g
      | none => ownerGroupAt (c :: rest)
    else ownerGroupAt (c :: rest)

/-- `\s+([a-zA-Z ]{2,40})` at the head of `s`. -/
def ownerAfter (s : Str) : Option Str :=
  match s with
  | c :: rest => if isPySpace c then ownerSpaces rest else none
  | [] => none

/-- The four alternatives of the owner trigger group. -/
def ownerTriggers : List Str :=
  ["assigned to".toList, "owner is".toList, "handled by".toList, "owned by".toList]

/-- One position of the owner search: try each trigger alternative in pattern
order (at most one can match, the literals being pairwise prefix-incompatible)
and parse the rest of the pattern after it. -/
def ownerHere (s : Str) : Option Str :=
  ownerTriggers.findSome? (fun trig =>
    if trig.isPrefixOf s then ownerAfter (s.drop trig.length) else none)

/-- `_normalize_person_name` of intelligence.py: strip, drop one trailing run
of `[\.\,\;\:\-]`, collapse internal whitespace runs to single spaces. -/
def isTrailPunct (c : Char) : Bool :=
  c == '.' || c == ',' || c == ';' || c == ':' || c == '-'

/-- `re.sub(r"\s+", " ", s)`: each maximal whitespace run becomes one space.
`inRun` tells whether the previous character was whitespace (in which case
the current run has already emitted its single space). -/
def collapseWsAux (inRun : Bool) : Str → Str
  | [] => []
  | c :: rest =>
    if isPySpace c then
      if inRun then collapseWsAux true rest else ' ' :: collapseWsAux true rest
    else c :: collapseWsAux false rest

def collapseWs (s : Str) : Str := collapseWsAux false s

def normalize_person_name (s : Str) : Str :=
  collapseWs ((pyStrip s).reverse.dropWhile isTrailPunct).reverse

/-- The owner-rule search over the original-case text, returning the
normalized captured name. -/
def findOwner : Str → Option Str
  | [] => none
  | c :: rest =>
    match ownerHere (c :: rest) with
    | some g => some (normalize_person_name g)
    | none => findOwner rest

/-- `tasks[-1]["owner"] = owner`: overwrite the owner of the last task. -/
def setLastOwner : List TaskItem → Str → List TaskItem
  | [], _ => []
  | [t], nm => [{ t with owner := some nm }]
  | t :: ts, nm => t :: setLastOwner ts nm

/-- Owner-attachment rule of `extract_tasks` (runs on the original text,
after the three keyword branches and before the named-actor rule). -/
def applyOwner (text : Str) (dl : Option Str) (ts : List TaskItem) : List TaskItem :=
  match findOwner text with
  | none => ts
  | some nm =>
    match ts with
    | [] => [⟨"Owned item".toList, none, dl, some nm, none⟩]
    | _ => setLastOwner ts nm

-- named-actor rule:
-- `re.findall(r"\b([A-Z][a-z]+(?:\s[A-Z][a-z]+)?)\s+(will|was)\s+(handle|prepare|coordinate|own|lead)", text)`

/-- The action alternatives of the named-actor pattern. -/
def actorActions : List Str :=
  ["handle".toList, "prepare".toList, "coordinate".toList, "own".toList, "lead".toList]

/-- The verb alternation `(will|was)` at the head of `s1`; returns the rest. -/
def verbAt (s1 : Str) : Option Str :=
  if ("will".toList).isPrefixOf s1 then some (s1.drop 4)
  else if ("was".toList).isPrefixOf s1 then some (s1.drop 3)
  else none

/-- The action alternation at the head of `s3`; returns (action, rest). -/
def actionAt (s3 : Str) : Option (Str × Str) :=
  match actorActions.find? (fun a => a.isPrefixOf s3) with
  | some a => some (a, s3.drop a.length)
  | none => none

/-- `\s+(will|was)\s+(handle|...)` at the head of `s`; returns the captured
action and the rest of the text after the whole match. -/
def actorTail (s : Str) : Option (Str × Str) :=
  if (s.takeWhile isPySpace).isEmpty then none
  else
    match verbAt (s.drop (s.takeWhile isPySpace).length) with
    | none => none
    | some s2 =>
      if (s2.takeWhile isPySpace).isEmpty then none
      else actionAt (s2.drop (s2.takeWhile isPySpace).length)

/-- The greedy attempt at the optional second name `(?:\s[A-Z][a-z]+)?`
followed by the tail; `first` is the first name, `rest1` the text after it. -/
def actorSecond (first : Str) (rest1 : Str) : Option (Str × Str × Str) :=
  match rest1 with
  | w :: u :: r3 =>
    if isPySpace w && u.isUpper then
      if (r3.takeWhile Char.isLower).isEmpty then none
      else
        match actorTail (r3.drop (r3.takeWhile Char.isLower).length) with
        | some (a, rem) => some (first ++ w :: u :: r3.takeWhile Char.isLower, a, rem)
        | none => none
    else none
  | _ => none

/-- One position of the named-actor search (a `\b` boundary holds before it):
`[A-Z][a-z]+`, then greedily the optional second name (falling back to the
empty option if the tail fails after it), then the tail.  Returns the
captured (name, action) and the rest of the text after the match. -/
def actorHere (s : Str) : Option (Str × Str × Str) :=
  match s with
  | [] => none
  | c :: rest =>
    if c.isUpper then
      if (rest.takeWhile Char.isLower).isEmpty then none
      else
        match actorSecond (c :: rest.takeWhile Char.isLower)
            (rest.drop (rest.takeWhile Char.isLower).length) with
        | some res => some res
        | none =>
          match actorTail (rest.drop (rest.takeWhile Char.isLower).length) with
          | some (a, rem) => some (c :: rest.takeWhile Char.isLower, a, rem)
          | none => none
    else none

/-- The left-to-right non-overlapping scan of `re.findall`, with `\b`
tracking via `prevW`.  `fuel` bounds the recursion; the scan consumes at
least one character per step, so `fuel := s.length` is always enough. -/
def findActorsAux : Nat → Bool → Str → List (Str × Str)
  | 0, _, _ => []
  | _ + 1, _, [] => []
  | fuel + 1, prevW, c :: rest =>
    if prevW then findActorsAux fuel (isWordChar c) rest
    else
      match actorHere (c :: rest) with
      | some (nm, a, rem) => (nm, a) :: findActorsAux fuel true rem
      | none => findActorsAux fuel (isWordChar c) rest

def findActors (text : Str) : List (Str × Str) := findActorsAux text.length false text

/-- The named-actor tasks appended by the last loop of `extract_tasks`. -/
def namedTasks (text : Str) (dl : Option Str) : List TaskItem :=
  (findActors text).map (fun p =>
    ⟨pyCapitalize p.2 ++ " task".toList, none, dl, some (normalize_person_name p.1), none⟩)

/-- `extract_tasks` of intelligence.py. -/
def extract_tasks (text : Str) : List TaskItem :=
  let t := low text
  let dl := sharedDeadline t
  let base := blockerTasks t dl ++ launchTasks t dl ++ submissionTasks t dl
  applyOwner text dl base ++ namedTasks text dl

-- ---------------- conflict detection ----------------

/-- `detect_conflicts` of intelligence.py.  `latest_truth_value` may be the
SQL `None`; Python truthiness makes `None` and `""` falsy. -/
def detect_conflicts (latest : Option Str) (newv : Str) : Bool :=
  match latest with
  | some v => !v.isEmpty && !newv.isEmpty && pyStrip v != pyStrip newv
  | none => false

-- ---------------- risk computation ----------------

/-- Score, level and reasons of `compute_risk` as a function of its five rule
conditions (base 15, additive increments in rule order, capped at 100). -/
def riskCore (b1 b2 b3 b4 b5 : Bool) : Nat × Str × List Str :=
  let score := 15 + (if b1 then 35 else 0) + (if b2 then 20 else 0) +
               (if b3 then 15 else 0) + (if b4 then 20 else 0) + (if b5 then 10 else 0)
  let score := min score 100
  let reasons :=
    (if b1 then [("Blocker / dependency detected".toList)] else []) ++
    (if b2 then [("Ambiguity signal (unclear/unknown)".toList)] else []) ++
    (if b3 then [("Deadline / submission mentioned".toList)] else []) ++
    (if b4 then [("Very near-term deadline (today/tomorrow/EOD)".toList)] else []) ++
    (if b5 then [("Tasks present but owner not identified".toList)] else [])
  let level :=
    if 70 ≤ score then "HIGH".toList
    else if 40 ≤ score then "MEDIUM".toList
    else "LOW".toList
  (score, level, reasons)

/-- `compute_risk` of intelligence.py: `(score, level, reasons)`.  The five
conditions are the source's five `if` tests, in order. -/
def compute_risk (text : Str) (tasks : List TaskItem) : Nat × Str × List Str :=
  let t := low text
  riskCore
    (containsSub ("blocked".toList) t ||
      tasks.any (fun tk => tk.status == some ("blocked".toList)))
    ([("unclear".toList), ("not sure".toList), ("unknown".toList),
      ("needs confirmation".toList)].any (fun kw => containsSub kw t))
    ([("deadline".toList), ("submission".toList), ("submit".toList)].any
      (fun kw => containsSub kw t))
    ([("tomorrow".toList), ("today".toList), ("eod".toList),
      ("end of day".toList)].any (fun kw => containsSub kw t))
    (!tasks.isEmpty && !(tasks.any (fun tk => pyTruthyOpt tk.owner)))

-- ---------------- routing suggestions ----------------

/-- The `TEAM_KEYWORDS` dict of intelligence.py, in its insertion order. -/
def TEAM_KEYWORDS : List (Str × Str) :=
  [("backend".toList, "Backend Lead".toList),
   ("frontend".toList, "Frontend Lead".toList),
   ("ui".toList, "Frontend Lead".toList),
   ("design".toList, "Design Lead".toList),
   ("qa".toList, "QA Lead".toList),
   ("testing".toList, "QA Lead".toList),
   ("api".toList, "Backend Lead".toList),
   ("infra".toList, "Infra Lead".toList),
   ("devops".toList, "Infra Lead".toList),
   ("security".toList, "Security Lead".toList)]

/-- Add an element to a set modelled as a duplicate-free list, recording
insertion order. -/
def setAdd (l : List Str) (x : Str) : List Str :=
  if l.contains x then l else l ++ [x]

/-- `routing_suggestions` of intelligence.py, modelled as the membership of
the Python set `notify` listed in insertion order.  The source builds a
`set()` and returns `list(notify)`; the *members* are exactly the ones below,
but CPython iterates a `set` in hash-table order (randomized per process via
`PYTHONHASHSEED`), not in insertion order. -/
def routing_suggestions (text : Str) (tasks : List TaskItem) : List Str :=
  let t := low text
  let n1 := TEAM_KEYWORDS.foldl
    (fun acc p => if containsSub p.1 t then setAdd acc p.2 else acc) []
  let n2 :=
    if [("launch".toList), ("deadline".toList), ("submission".toList),
        ("submit".toList)].any (fun kw => containsSub kw t) then
      setAdd n1 ("Project Manager".toList)
    else n1
  let n3 := tasks.foldl
    (fun acc tk => if pyTruthyOpt tk.owner then setAdd acc (tk.owner.getD []) else acc) n2
  if n3.isEmpty then [("Project Manager".toList)] else n3

-- ---------------- graph builder ----------------

structure GNode where
  id : Str
  type : Str
deriving DecidableEq, Repr

structure GEdge where
  source : Str
  target : Str
  type : Str
deriving DecidableEq, Repr

/-- `add_node` of `build_graph`: insert only if no node has this id. -/
def add_node (nodes : List GNode) (n : Str) (typ : Str) : List GNode :=
  if nodes.any (fun x => x.id == n) then nodes else nodes ++ [⟨n, typ⟩]

/-- `task.get("task") or "Task"` (falsy label falls back to "Task"). -/
def effLabel (tk : TaskItem) : Str := if tk.task.isEmpty then "Task".toList else tk.task

/-- Body of the per-task loop of `build_graph`. -/
def graphTaskStep (routing : List Str) (st : List GNode × List GEdge) (tk : TaskItem) :
    List GNode × List GEdge :=
  let tname := effLabel tk
  let ns := add_node st.1 tname ("task".toList)
  let es := st.2 ++ routing.map (fun p => GEdge.mk p tname ("notified_about".toList))
  if pyTruthyOpt tk.dependency then
    let dep := "Dependency: ".toList ++ tk.dependency.getD []
    (add_node ns dep ("dependency".toList), es ++ [GEdge.mk tname dep ("blocked_by".toList)])
  else (ns, es)

/-- Body of the per-truth loop of `build_graph`. -/
def graphTruthStep (tasks : List TaskItem) (st : List GNode × List GEdge) (tr : Truth) :
    List GNode × List GEdge :=
  let tn := tr.key ++ " = ".toList ++ tr.value
  let ns := add_node st.1 tn ("truth".toList)
  (ns, st.2 ++ tasks.map (fun tk => GEdge.mk tn (effLabel tk) ("context".toList)))

/-- `build_graph` of intelligence.py (the unused `text` parameter kept). -/
def build_graph (_text : Str) (tasks : List TaskItem) (routing : List Str)
    (truths : List Truth) : List GNode × List GEdge :=
  let ns := routing.foldl (fun ns p => add_node ns p ("person".toList)) []
  let st := tasks.foldl (graphTaskStep routing) (ns, [])
  truths.foldl (graphTruthStep tasks) st

-- ---------------- the truth store and the ingest orchestration ----------------

structure RawUpdate where
  org : Nat
  source : Str
  text : Str
deriving DecidableEq, Repr

structure TruthRow where
  org : Nat
  key : Str
  value : Str
  version : Nat
deriving DecidableEq, Repr

structure ConflictRow where
  org : Nat
  key : Str
  old_value : Str
  new_value : Str
  question : Str
deriving DecidableEq, Repr

structure TaskRow where
  org : Nat
  ingest_id : Nat
  task : Str
  owner : Option Str
  status : Option Str
  deadline : Option Str
  dependency : Option Str
deriving DecidableEq, Repr

structure RiskRow where
  org : Nat
  ingest_id : Nat
  score : Nat
  level : Str
  reasons : Str
deriving DecidableEq, Repr

/-- The persistent tables touched by `/ingest` (append-only lists, in
insertion order). -/
structure St where
  ingests : List RawUpdate
  truths : List TruthRow
  conflicts : List ConflictRow
  tasks : List TaskRow
  risks : List RiskRow
deriving DecidableEq, Repr

def emptySt : St := ⟨[], [], [], [], []⟩

/-- One fold step selecting a row of maximal version (ties kept on the first
seen; the invariant proved below rules ties out). -/
def maxVerStep (acc : Option TruthRow) (r : TruthRow) : Option TruthRow :=
  match acc with
  | none => some r
  | some b => if b.version < r.version then some r else some b

/-- `_get_latest_truth` of main.py:
`SELECT value, version ... ORDER BY version DESC LIMIT 1`, i.e. a row of
maximal version for this (org, key), else `(None, 0)`. -/
def get_latest_truth (st : St) (org : Nat) (key : Str) : Option Str × Nat :=
  match (st.truths.filter (fun r => r.org == org && r.key == key)).foldl maxVerStep none with
  | none => (none, 0)
  | some r => (some r.value, r.version)

/-- The f-string `f"Which is correct for {key}: '{old_val}' or '{val}'?"`. -/
def mkQuestion (key oldv newv : Str) : Str :=
  "Which is correct for ".toList ++ key ++ ": ".toList ++ ['\''] ++ oldv ++ ['\''] ++
  " or ".toList ++ ['\''] ++ newv ++ ['\''] ++ "?".toList

/-- The per-truth body of the ingest loop: record a conflict row when
`detect_conflicts` fires, and unconditionally append the new version at
`old_version + 1`. -/
def stepTruth (org : Nat) (st : St) (tr : Truth) : St :=
  { st with
    truths := st.truths ++
      [TruthRow.mk org tr.key tr.value ((get_latest_truth st org tr.key).2 + 1)],
    conflicts := st.conflicts ++
      (if detect_conflicts (get_latest_truth st org tr.key).1 tr.value then
        [ConflictRow.mk org tr.key (pyShow (get_latest_truth st org tr.key).1) tr.value
          (mkQuestion tr.key (pyShow (get_latest_truth st org tr.key).1) tr.value)]
       else []) }

/-- Python `", ".join(reasons)`. -/
def joinCommaSp : List Str → Str
  | [] => []
  | [r] => r
  | r :: rest => r ++ ", ".toList ++ joinCommaSp rest

/-- The state effects of the `/ingest` route of main.py.  Returns the new
state and `true` on success; empty/whitespace-only text is rejected before
anything is persisted (`return {"error": "Empty text"}`) and yields `false`. -/
def ingest (st : St) (org : Nat) (text source : Str) : St × Bool :=
  let t := pyStrip text
  if t.isEmpty then (st, false)
  else
    let tasks := extract_tasks t
    let truths := extract_truths t
    let risk := compute_risk t tasks
    let ingest_id := st.ingests.length + 1
    let st1 := { st with ingests := st.ingests ++ [⟨org, source, t⟩] }
    let st2 := truths.foldl (stepTruth org) st1
    let st3 := { st2 with tasks := st2.tasks ++ tasks.map (fun (tk : TaskItem) =>
        TaskRow.mk org ingest_id tk.task tk.owner tk.status tk.deadline tk.dependency) }
    let st4 := { st3 with risks := st3.risks ++
        [RiskRow.mk org ingest_id risk.1 risk.2.1 (joinCommaSp risk.2.2)] }
    (st4, true)

-- ---------------- shared lemmas ----------------

theorem containsSub_iff (nd : Str) : ∀ h : Str, containsSub nd h = true ↔ nd <:+: h
  | [] => by
    simp [containsSub, List.isPrefixOf_iff_prefix]
  | c :: rest => by
    simp only [containsSub, Bool.or_eq_true, List.isPrefixOf_iff_prefix,
      containsSub_iff nd rest, List.infix_cons_iff]

/-- Substring containment survives lowercasing when the needle is already
lowercase. -/
theorem contains_low (nd text : Str) (hfix : nd.map Char.toLower = nd)
    (h : containsSub nd text = true) : containsSub nd (low text) = true := by
  rw [containsSub_iff] at h ⊢
  have hm := h.map Char.toLower
  rwa [hfix] at hm

-- ---------------- C6 ----------------

/-- C6: an ingest whose text is empty or whitespace-only fails (returns the
error result `false`) and persists nothing — the stored state is returned
unchanged. -/
theorem ingest_rejects_blank (st : St) (org : Nat) (text source : Str)
    (h : pyStrip text = []) : ingest st org text source = (st, false) := by
  simp [ingest, h]

theorem ingest_rejects_blank_witness :
    pyStrip ("  \t ".toList) = [] ∧
      ingest emptySt 1 ("  \t ".toList) ("Chat update".toList) = (emptySt, false) :=
  ⟨by decide, ingest_rejects_blank emptySt 1 ("  \t ".toList) ("Chat update".toList) (by decide)⟩

-- ---------------- C3 ----------------

/-- All properties of C3 that do not depend on the text, decided over the 32
combinations of the five rule conditions. -/
theorem riskCore_spec : ∀ b1 b2 b3 b4 b5 : Bool,
    15 ≤ (riskCore b1 b2 b3 b4 b5).1 ∧ (riskCore b1 b2 b3 b4 b5).1 ≤ 100 ∧
    ((riskCore b1 b2 b3 b4 b5).2.1 = "HIGH".toList ↔ 70 ≤ (riskCore b1 b2 b3 b4 b5).1) ∧
    ((riskCore b1 b2 b3 b4 b5).2.1 = "MEDIUM".toList ↔
      (40 ≤ (riskCore b1 b2 b3 b4 b5).1 ∧ (riskCore b1 b2 b3 b4 b5).1 < 70)) ∧
    ((riskCore b1 b2 b3 b4 b5).2.1 = "LOW".toList ↔ (riskCore b1 b2 b3 b4 b5).1 < 40) := by
  decide

theorem riskCore_hot : ∀ b2 b5 : Bool,
    85 ≤ (riskCore true b2 true true b5).1 ∧
      (riskCore true b2 true true b5).2.1 = "HIGH".toList := by
  decide

/-- C3: `compute_risk` always returns a score in [15, 100]; the level is HIGH
iff the score is ≥ 70, MEDIUM iff it is in [40, 70), LOW iff it is < 40; and
any text containing "blocked", "tomorrow" and "deadline" scores at least 85
and is rated HIGH. -/
theorem compute_risk_spec (text : Str) (tasks : List TaskItem) :
    15 ≤ (compute_risk text tasks).1 ∧ (compute_risk text tasks).1 ≤ 100 ∧
    ((compute_risk text tasks).2.1 = "HIGH".toList ↔ 70 ≤ (compute_risk text tasks).1) ∧
    ((compute_risk text tasks).2.1 = "MEDIUM".toList ↔
      (40 ≤ (compute_risk text tasks).1 ∧ (compute_risk text tasks).1 < 70)) ∧
    ((compute_risk text tasks).2.1 = "LOW".toList ↔ (compute_risk text tasks).1 < 40) ∧
    (containsSub ("blocked".toList) text = true →
     containsSub ("tomorrow".toList) text = true →
     containsSub ("deadline".toList) text = true →
     85 ≤ (compute_risk text tasks).1 ∧
       (compute_risk text tasks).2.1 = "HIGH".toList) := by
  have hmain := riskCore_spec
    (containsSub ("blocked".toList) (low text) ||
      tasks.any (fun tk => tk.status == some ("blocked".toList)))
    ([("unclear".toList), ("not sure".toList), ("unknown".toList),
      ("needs confirmation".toList)].any (fun kw => containsSub kw (low text)))
    ([("deadline".toList), ("submission".toList), ("submit".toList)].any
      (fun kw => containsSub kw (low text)))
    ([("tomorrow".toList), ("today".toList), ("eod".toList),
      ("end of day".toList)].any (fun kw => containsSub kw (low text)))
    (!tasks.isEmpty && !(tasks.any (fun tk => pyTruthyOpt tk.owner)))
  refine ⟨hmain.1, hmain.2.1, hmain.2.2.1, hmain.2.2.2.1, hmain.2.2.2.2, ?_⟩
  intro hb ht hd
  have hb' := contains_low ("blocked".toList) text (by decide) hb
  have ht' := contains_low ("tomorrow".toList) text (by decide) ht
  have hd' := contains_low ("deadline".toList) text (by decide) hd
  have e1 : (containsSub ("blocked".toList) (low text) ||
      tasks.any (fun tk => tk.status == some ("blocked".toList))) = true := by
    rw [hb']; rfl
  have e3 : ([("deadline".toList), ("submission".toList), ("submit".toList)].any
      (fun kw => containsSub kw (low text))) = true := by
    simp [List.any_eq_true]
    exact Or.inl hd'
  have e4 : ([("tomorrow".toList), ("today".toList), ("eod".toList),
      ("end of day".toList)].any (fun kw => containsSub kw (low text))) = true := by
    simp [List.any_eq_true]
    exact Or.inl ht'
  have : compute_risk text tasks = riskCore true
      ([("unclear".toList), ("not sure".toList), ("unknown".toList),
        ("needs confirmation".toList)].any (fun kw => containsSub kw (low text)))
      true true
      (!tasks.isEmpty && !(tasks.any (fun tk => pyTruthyOpt tk.owner))) := by
    rw [compute_risk]
    rw [e1, e3, e4]
  rw [this]
  exact riskCore_hot _ _

theorem compute_risk_spec_witness :
    containsSub ("blocked".toList) ("blocked tomorrow deadline".toList) = true ∧
    containsSub ("tomorrow".toList) ("blocked tomorrow deadline".toList) = true ∧
    containsSub ("deadline".toList) ("blocked tomorrow deadline".toList) = true ∧
    85 ≤ (compute_risk ("blocked tomorrow deadline".toList) []).1 ∧
      (compute_risk ("blocked tomorrow deadline".toList) []).2.1 = "HIGH".toList :=
  ⟨by decide, by decide, by decide,
    (compute_risk_spec ("blocked tomorrow deadline".toList) []).2.2.2.2.2
      (by decide) (by decide) (by decide)⟩

-- ---------------- C9 ----------------

/-- Every truth emitted by `extract_truths` comes from one of the four rules;
the launch rule fires only when "launch" is present. -/
theorem extract_truths_key (text : Str) (tr : Truth) (h : tr ∈ extract_truths text) :
    (tr.key = "launch_date".toList ∧ containsSub ("launch".toList) (low text) = true) ∨
    tr.key = "priority".toList ∨ tr.key = "decision_status".toList ∨
    tr.key = "scope".toList := by
  unfold extract_truths at h
  simp only [List.mem_append] at h
  rcases h with ((h | h) | h) | h
  · split at h
    · split at h
      · rcases List.mem_singleton.mp h with rfl
        exact Or.inl ⟨rfl, by assumption⟩
      · exact absurd h (List.not_mem_nil tr)
    · exact absurd h (List.not_mem_nil tr)
  · split at h
    · rcases List.mem_singleton.mp h with rfl
      exact Or.inr (Or.inl rfl)
    · exact absurd h (List.not_mem_nil tr)
  · split at h
    · rcases List.mem_singleton.mp h with rfl
      exact Or.inr (Or.inr (Or.inl rfl))
    · exact absurd h (List.not_mem_nil tr)
  · split at h
    · rcases List.mem_singleton.mp h with rfl
      exact Or.inr (Or.inr (Or.inr rfl))
    · exact absurd h (List.not_mem_nil tr)

/-- C9: the extractors and the risk scorer are total functions of the input
string: on the empty string they return normally with empty results and the
base score, a missing pattern yields a missing record (shown for the launch
rule: without "launch" in the lowercased text no `launch_date` truth exists),
and `extract_truths` never emits more than its four rule records. -/
theorem extractors_total :
    (extract_truths [] = [] ∧ extract_tasks [] = [] ∧
      compute_risk [] [] = (15, "LOW".toList, [])) ∧
    (∀ text : Str, containsSub ("launch".toList) (low text) = false →
      ∀ tr ∈ extract_truths text, tr.key ≠ "launch_date".toList) ∧
    (∀ text : Str, (extract_truths text).length ≤ 4) := by
  refine ⟨by decide, ?_, ?_⟩
  · intro text hne tr htr hkey
    rcases extract_truths_key text tr htr with ⟨_, hc⟩ | h | h | h
    · rw [hne] at hc
      exact Bool.false_ne_true hc
    · rw [hkey] at h
      exact absurd h (by decide)
    · rw [hkey] at h
      exact absurd h (by decide)
    · rw [hkey] at h
      exact absurd h (by decide)
  · intro text
    unfold extract_truths
    simp only [List.length_append]
    have h1 : ∀ b : Bool, ∀ x : List Truth,
        (if b = true then x else []).length ≤ x.length := by
      intro b x
      split
      · exact Nat.le_refl _
      · exact Nat.zero_le _
    have h2 : (match find_day (low text) with
        | some day => [Truth.mk ("launch_date".toList) day]
        | none => ([] : List Truth)).length ≤ 1 := by
      split
      · exact Nat.le_refl _
      · exact Nat.zero_le _
    have h3 : (match findPriority (low text) with
        | some g => [Truth.mk ("priority".toList) (upperStr g)]
        | none => ([] : List Truth)).length ≤ 1 := by
      split
      · exact Nat.le_refl _
      · exact Nat.zero_le _
    have g1 : (if containsSub ("launch".toList) (low text) = true then
        (match find_day (low text) with
         | some day => [Truth.mk ("launch_date".toList) day]
         | none => ([] : List Truth))
        else []).length ≤ 1 := Nat.le_trans (h1 _ _) h2
    have g2 := h1 ([("we decided".toList), ("decision".toList), ("approved".toList),
        ("finalized".toList), ("confirmed".toList)].any (fun kw => containsSub kw (low text)))
      [Truth.mk ("decision_status".toList) ("UPDATED".toList)]
    have g3 := h1 (containsSub ("scope".toList) (low text) &&
        [("change".toList), ("changed".toList), ("reduced".toList),
         ("expanded".toList), ("updated".toList)].any (fun kw => containsSub kw (low text)))
      [Truth.mk ("scope".toList) ("CHANGED".toList)]
    simp only [List.length_singleton] at g2 g3
    omega

theorem extractors_total_witness :
    containsSub ("launch".toList) (low ("Deadline friday".toList)) = false ∧
    (∀ tr ∈ extract_truths ("Deadline friday".toList), tr.key ≠ "launch_date".toList) ∧
    (extract_truths ("Deadline friday".toList)).length ≤ 4 :=
  ⟨by decide,
    extractors_total.2.1 ("Deadline friday".toList) (by decide),
    extractors_total.2.2 ("Deadline friday".toList)⟩

-- ---------------- C8 ----------------

/-- C8 counterexample: on the claim's own example `"priority - high"` the
code emits the truth {priority, HIGH}, while the pattern quoted by the claim,
`priority[:-]?\s*(p0|p1|p2|high|medium|low)` (no `\s*` before the separator),
does not match the lowercased text at all — so the extraction is not the
matching of that pattern. -/
theorem priority_pattern_cex :
    extract_truths ("priority - high".toList) =
      [Truth.mk ("priority".toList) ("HIGH".toList)] ∧
    findPriorityClaim (low ("priority - high".toList)) = none := by
  constructor
  · decide
  · decide

/-- C8 (amended): the priority rule emits exactly the truths produced by
matching the lowercased text against the source pattern
`priority\s*[:\-]?\s*(p0|p1|p2|high|medium|low)` (key `priority`, value the
uppercased captured group), and the claim's two examples hold. -/
theorem extract_truths_priority :
    (∀ text : Str, (extract_truths text).filter (fun tr => tr.key == "priority".toList) =
      (match findPriority (low text) with
       | some g => [Truth.mk ("priority".toList) (upperStr g)]
       | none => [])) ∧
    extract_truths ("Priority: P0".toList) = [Truth.mk ("priority".toList) ("P0".toList)] ∧
    extract_truths ("priority - high".toList) =
      [Truth.mk ("priority".toList) ("HIGH".toList)] := by
  refine ⟨?_, by decide, by decide⟩
  intro text
  unfold extract_truths
  simp only [List.filter_append]
  have kL : ∀ day : Str, ((Truth.mk ("launch_date".toList) day).key ==
      ("priority".toList : Str)) = false := by
    intro day
    show (("launch_date".toList : Str) == ("priority".toList : Str)) = false
    decide
  have h1 : (if containsSub ("launch".toList) (low text) = true then
      (match find_day (low text) with
       | some day => [Truth.mk ("launch_date".toList) day]
       | none => ([] : List Truth))
      else []).filter (fun tr => tr.key == ("priority".toList : Str)) = [] := by
    split
    · split
      · simp [List.filter_cons, kL]
      · rfl
    · rfl
  have h2 : (match findPriority (low text) with
      | some g => [Truth.mk ("priority".toList) (upperStr g)]
      | none => ([] : List Truth)).filter (fun tr => tr.key == ("priority".toList : Str)) =
      (match findPriority (low text) with
       | some g => [Truth.mk ("priority".toList) (upperStr g)]
       | none => ([] : List Truth)) := by
    split
    · simp [List.filter_cons]
    · rfl
  have h3 : (if ([("we decided".toList), ("decision".toList), ("approved".toList),
      ("finalized".toList), ("confirmed".toList)].any
        (fun kw => containsSub kw (low text))) = true then
      [Truth.mk ("decision_status".toList) ("UPDATED".toList)]
      else ([] : List Truth)).filter (fun tr => tr.key == ("priority".toList : Str)) = [] := by
    split
    · simp [List.filter_cons]
    · rfl
  have h4 : (if (containsSub ("scope".toList) (low text) &&
      [("change".toList), ("changed".toList), ("reduced".toList),
       ("expanded".toList), ("updated".toList)].any
        (fun kw => containsSub kw (low text))) = true then
      [Truth.mk ("scope".toList) ("CHANGED".toList)]
      else ([] : List Truth)).filter (fun tr => tr.key == ("priority".toList : Str)) = [] := by
    split
    · simp [List.filter_cons]
    · rfl
  rw [h1, h2, h3, h4]
  simp

-- ---------------- C5 ----------------

/-- C5 counterexample: the owner-attachment rule is matched against the
original-case text with lowercase trigger literals, so it is case-sensitive.
`"Assigned to Bob"` (capital A) produces no task at all, while the claim
(case-insensitive trigger) would require an "Owned item" task owned by Bob —
which the all-lowercase trigger does produce. -/
theorem owner_rule_case_cex :
    extract_tasks ("Assigned to Bob".toList) = [] ∧
    extract_tasks ("assigned to Bob".toList) =
      [TaskItem.mk ("Owned item".toList) none none (some ("Bob".toList)) none] := by
  constructor
  · decide
  · decide

theorem setLastOwner_append : ∀ (pre : List TaskItem) (last : TaskItem) (nm : Str),
    setLastOwner (pre ++ [last]) nm = pre ++ [{ last with owner := some nm }]
  | [], _, _ => rfl
  | [_], _, _ => rfl
  | p :: q :: pre, last, nm => by
    have ih := setLastOwner_append (q :: pre) last nm
    show p :: setLastOwner ((q :: pre) ++ [last]) nm = _
    rw [ih]
    rfl

/-- C5 (amended): when the pattern
`(assigned to|owner is|handled by|owned by)\s+([a-zA-Z ]{2,40})` matches the
original-case text (the trigger phrase must therefore appear in lowercase),
the rule overwrites the owner of the last task drafted by the three keyword
branches with the normalized name, and when those branches drafted no task it
creates a generic "Owned item" task with that owner; the named-actor tasks
are appended afterwards either way. -/
theorem owner_rule_spec (text nm : Str) (h : findOwner text = some nm) :
    (blockerTasks (low text) (sharedDeadline (low text)) ++
       launchTasks (low text) (sharedDeadline (low text)) ++
       submissionTasks (low text) (sharedDeadline (low text)) = [] →
      extract_tasks text =
        TaskItem.mk ("Owned item".toList) none (sharedDeadline (low text)) (some nm) none ::
          namedTasks text (sharedDeadline (low text))) ∧
    (∀ (pre : List TaskItem) (last : TaskItem),
      blockerTasks (low text) (sharedDeadline (low text)) ++
        launchTasks (low text) (sharedDeadline (low text)) ++
        submissionTasks (low text) (sharedDeadline (low text)) = pre ++ [last] →
      extract_tasks text =
        (pre ++ [{ last with owner := some nm }]) ++
          namedTasks text (sharedDeadline (low text))) := by
  constructor
  · intro hbase
    simp only [extract_tasks]
    rw [hbase]
    simp only [applyOwner, h]
    rfl
  · intro pre last hbase
    simp only [extract_tasks]
    rw [hbase]
    simp only [applyOwner, h]
    cases pre with
    | nil => rfl
    | cons p ps =>
      simp only [List.cons_append]
      rw [show setLastOwner (p :: (ps ++ [last])) nm =
        setLastOwner ((p :: ps) ++ [last]) nm from rfl, setLastOwner_append]
      simp

theorem owner_rule_spec_witness :
    findOwner ("launch friday assigned to Bob".toList) = some ("Bob".toList) ∧
    extract_tasks ("launch friday assigned to Bob".toList) =
      [TaskItem.mk ("Launch readiness".toList) none (some ("Friday".toList))
        (some ("Bob".toList)) none] := by
  constructor
  · decide
  · have h := (owner_rule_spec ("launch friday assigned to Bob".toList) ("Bob".toList)
      (by decide)).2 []
      (TaskItem.mk ("Launch readiness".toList) none (some ("Friday".toList)) none none)
      (by decide)
    rw [h]
    decide

-- ---------------- C4 ----------------

/-- C4: the membership of the routing set at the failing input
`("backend launch", [])` is {Backend Lead, Project Manager} (two elements,
listed here in insertion order), and the no-match default is exactly
["Project Manager"].  The Python source returns `list(notify)` for a
`set()`, whose iteration order is CPython hash-table order (randomized per
process), so for the two-element case the *order* the claim promises is not
guaranteed by the code. -/
theorem routing_set_members :
    routing_suggestions ("backend launch".toList) [] =
      [("Backend Lead".toList), ("Project Manager".toList)] ∧
    routing_suggestions ("hello there".toList) [] = [("Project Manager".toList)] := by
  constructor
  · decide
  · decide

-- ---------------- C2 ----------------

theorem foldl_maxVerStep_mem : ∀ (l : List TruthRow) (acc : Option TruthRow) (r : TruthRow),
    l.foldl maxVerStep acc = some r → acc = some r ∨ r ∈ l
  | [], _, r => fun h => Or.inl h
  | x :: xs, acc, r => by
    intro h
    rcases foldl_maxVerStep_mem xs (maxVerStep acc x) r h with h1 | h1
    · rcases acc with _ | b
      · simp only [maxVerStep] at h1
        rcases Option.some_inj.mp h1 with rfl
        exact Or.inr (List.mem_cons_self x xs)
      · simp only [maxVerStep] at h1
        split at h1
        · rcases Option.some_inj.mp h1 with rfl
          exact Or.inr (List.mem_cons_self x xs)
        · exact Or.inl h1
    · exact Or.inr (List.mem_cons_of_mem x h1)

/-- A present latest value is the value of some stored row. -/
theorem get_latest_truth_mem (st : St) (org : Nat) (key : Str) (v : Str)
    (h : (get_latest_truth st org key).1 = some v) : ∃ r ∈ st.truths, r.value = v := by
  unfold get_latest_truth at h
  split at h
  · exact absurd h (by simp)
  · rename_i r hr
    rcases foldl_maxVerStep_mem _ _ _ hr with h1 | h1
    · exact absurd h1 (by simp)
    · refine ⟨r, List.mem_of_mem_filter h1, ?_⟩
      simpa using h

theorem findDayAux_mem : ∀ (prevW : Bool) (s : Str) (d : Str),
    findDayAux prevW s = some d → d ∈ DAYS
  | _, [], _ => by intro h; exact absurd h (by simp [findDayAux])
  | prevW, c :: rest, d => by
    intro h
    unfold findDayAux at h
    split at h
    · exact findDayAux_mem _ rest d h
    · revert h
      split
      · intro h
        rename_i hd
        rcases Option.some_inj.mp h with rfl
        exact List.mem_of_find?_eq_some hd
      · intro h
        exact findDayAux_mem _ rest d h

theorem find_day_isEmpty (t : Str) (d : Str) (h : find_day t = some d) :
    d.isEmpty = false := by
  unfold find_day at h
  rcases Option.map_eq_some'.mp h with ⟨d0, hd0, rfl⟩
  have hmem := findDayAux_mem false t d0 hd0
  have : d0.isEmpty = false := by
    fin_cases hmem <;> decide
  rcases d0 with _ | ⟨c, r⟩
  · exact absurd this (by decide)
  · rfl

theorem prioAfter_mem (s : Str) (g : Str) (h : prioAfter s = some g) : g ∈ prioAlts := by
  unfold prioAfter at h
  split at h
  · split at h
    · split at h
      · rename_i hfind
        rcases Option.some_inj.mp h with rfl
        exact List.mem_of_find?_eq_some hfind
      · exact List.mem_of_find?_eq_some h
    · exact List.mem_of_find?_eq_some h
  · exact List.mem_of_find?_eq_some h

theorem findPriority_mem : ∀ (s : Str) (g : Str), findPriority s = some g → g ∈ prioAlts
  | [], _ => by intro h; exact absurd h (by simp [findPriority])
  | c :: rest, g => by
    intro h
    unfold findPriority at h
    split at h
    · split at h
      · rename_i g0 hg0
        rcases Option.some_inj.mp h with rfl
        exact prioAfter_mem _ _ hg0
      · exact findPriority_mem rest g h
    · exact findPriority_mem rest g h

/-- Every value emitted by `extract_truths` is a nonempty string. -/
theorem extract_truths_value_ne (text : Str) (tr : Truth) (h : tr ∈ extract_truths text) :
    tr.value.isEmpty = false := by
  unfold extract_truths at h
  simp only [List.mem_append] at h
  rcases h with ((h | h) | h) | h
  · split at h
    · split at h
      · rcases List.mem_singleton.mp h with rfl
        rename_i hd
        exact find_day_isEmpty _ _ hd
      · exact absurd h (List.not_mem_nil tr)
    · exact absurd h (List.not_mem_nil tr)
  · split at h
    · rcases List.mem_singleton.mp h with rfl
      rename_i hg
      have hmem := findPriority_mem _ _ hg
      show (upperStr _).isEmpty = false
      fin_cases hmem <;> decide
    · exact absurd h (List.not_mem_nil tr)
  · split at h
    · rcases List.mem_singleton.mp h with rfl
      decide
    · exact absurd h (List.not_mem_nil tr)
  · split at h
    · rcases List.mem_singleton.mp h with rfl
      decide
    · exact absurd h (List.not_mem_nil tr)

/-- The truths table is always extended exactly by the new version row,
whatever the conflict check said. -/
theorem stepTruth_truths (org : Nat) (st : St) (tr : Truth) :
    (stepTruth org st tr).truths = st.truths ++
      [TruthRow.mk org tr.key tr.value ((get_latest_truth st org tr.key).2 + 1)] := rfl

/-- C2: for an extracted truth processed against a store whose values are all
nonempty (as every stored value is, being itself extracted), a conflict row —
with the question `Which is correct for {key}: '{old}' or '{new}'?` — is
recorded iff a current value exists and differs from the new value after
trimming, and the new version row is appended in every case. -/
theorem conflict_detection_spec (st : St) (org : Nat) (text : Str) (tr : Truth)
    (hne : ∀ r ∈ st.truths, r.value.isEmpty = false)
    (htr : tr ∈ extract_truths text) :
    stepTruth org st tr =
      { st with
        truths := st.truths ++
          [TruthRow.mk org tr.key tr.value ((get_latest_truth st org tr.key).2 + 1)],
        conflicts := st.conflicts ++
          (match (get_latest_truth st org tr.key).1 with
           | some v =>
             if pyStrip v ≠ pyStrip tr.value then
               [ConflictRow.mk org tr.key v tr.value (mkQuestion tr.key v tr.value)]
             else []
           | none => []) } := by
  have hval := extract_truths_value_ne text tr htr
  have hcong :
      (if detect_conflicts (get_latest_truth st org tr.key).1 tr.value then
        [ConflictRow.mk org tr.key (pyShow (get_latest_truth st org tr.key).1) tr.value
          (mkQuestion tr.key (pyShow (get_latest_truth st org tr.key).1) tr.value)]
       else []) =
      (match (get_latest_truth st org tr.key).1 with
       | some v =>
         if pyStrip v ≠ pyStrip tr.value then
           [ConflictRow.mk org tr.key v tr.value (mkQuestion tr.key v tr.value)]
         else []
       | none => []) := by
    rcases hov : (get_latest_truth st org tr.key).1 with _ | v
    · simp [detect_conflicts]
    · rcases get_latest_truth_mem st org tr.key v hov with ⟨r, hrmem, hrv⟩
      have hvne : v.isEmpty = false := hrv ▸ hne r hrmem
      have hdet : detect_conflicts (some v) tr.value = (pyStrip v != pyStrip tr.value) := by
        show (!v.isEmpty && !tr.value.isEmpty && (pyStrip v != pyStrip tr.value)) = _
        rw [hvne, hval]
        simp
      rw [hdet]
      rcases heq : (pyStrip v != pyStrip tr.value) with _ | _
      · have hnn : ¬(pyStrip v ≠ pyStrip tr.value) := by
          simpa using heq
        simp [hnn]
      · have hyy : pyStrip v ≠ pyStrip tr.value := by
          simpa using heq
        simp [hyy, pyShow]
  unfold stepTruth
  rw [hcong]

theorem conflict_detection_spec_witness :
    (∀ r ∈ (St.mk [] [TruthRow.mk 1 ("launch_date".toList) ("Friday".toList) 1] [] [] []).truths,
      r.value.isEmpty = false) ∧
    Truth.mk ("launch_date".toList) ("Monday".toList) ∈
      extract_truths ("Launch Monday".toList) ∧
    stepTruth 1 (St.mk [] [TruthRow.mk 1 ("launch_date".toList) ("Friday".toList) 1] [] [] [])
        (Truth.mk ("launch_date".toList) ("Monday".toList)) =
      St.mk []
        [TruthRow.mk 1 ("launch_date".toList) ("Friday".toList) 1,
         TruthRow.mk 1 ("launch_date".toList) ("Monday".toList) 2]
        [ConflictRow.mk 1 ("launch_date".toList) ("Friday".toList) ("Monday".toList)
          (mkQuestion ("launch_date".toList) ("Friday".toList) ("Monday".toList))]
        [] [] := by
  refine ⟨by decide, by decide, ?_⟩
  have h := conflict_detection_spec
    (St.mk [] [TruthRow.mk 1 ("launch_date".toList) ("Friday".toList) 1] [] [] [])
    1 ("Launch Monday".toList) (Truth.mk ("launch_date".toList) ("Monday".toList))
    (by decide) (by decide)
  rw [h]
  decide

-- ---------------- C1 ----------------

/-- The version column of the (org, key) ledger, in insertion order. -/
def ledgerVersions (st : St) (org : Nat) (key : Str) : List Nat :=
  (st.truths.filter (fun r => r.org == org && r.key == key)).map (fun r => r.version)

/-- The C1 invariant: for every (org, key) the versions are exactly
`1, 2, ..., n` in insertion order — strictly increasing from 1, no gaps, no
reuse. -/
def truthLedgerInv (st : St) : Prop :=
  ∀ org key, ledgerVersions st org key =
    List.range' 1 (ledgerVersions st org key).length

theorem range'_concat_one : ∀ (s n : Nat), List.range' s (n+1) = List.range' s n ++ [s+n]
  | _, 0 => by simp [List.range']
  | s, n+1 => by
    have ih := range'_concat_one (s+1) n
    show s :: List.range' (s+1) (n+1) = List.range' s (n+1) ++ [s + (n+1)]
    rw [ih]
    show _ = (s :: List.range' (s+1) n) ++ _
    simp only [List.cons_append, List.append_assoc]
    have : s + 1 + n = s + (n + 1) := by omega
    rw [this]

theorem foldl_maxVerStep_ge : ∀ (l : List TruthRow) (c r : TruthRow),
    l.foldl maxVerStep (some c) = some r → c.version ≤ r.version
  | [], c, r => by
    intro h
    rcases Option.some_inj.mp h with rfl
    exact Nat.le_refl _
  | x :: xs, c, r => by
    intro h
    have h' : xs.foldl maxVerStep (maxVerStep (some c) x) = some r := h
    simp only [maxVerStep] at h'
    split at h'
    · rename_i hlt
      exact Nat.le_trans (Nat.le_of_lt hlt) (foldl_maxVerStep_ge xs x r h')
    · exact foldl_maxVerStep_ge xs c r h'

theorem foldl_maxVerStep_max : ∀ (l : List TruthRow) (acc : Option TruthRow) (r : TruthRow),
    l.foldl maxVerStep acc = some r → ∀ x ∈ l, x.version ≤ r.version
  | [], _, _ => by
    intro _ x hx
    exact absurd hx (List.not_mem_nil x)
  | x :: xs, acc, r => by
    intro h y hy
    have h' : xs.foldl maxVerStep (maxVerStep acc x) = some r := h
    rcases List.mem_cons.mp hy with rfl | hy
    · have hstep : ∀ c, maxVerStep acc y = some c → y.version ≤ c.version := by
        intro c hc
        rcases acc with _ | b
        · simp only [maxVerStep] at hc
          rcases Option.some_inj.mp hc with rfl
          exact Nat.le_refl _
        · simp only [maxVerStep] at hc
          split at hc
          · rcases Option.some_inj.mp hc with rfl
            exact Nat.le_refl _
          · rename_i hge
            rcases Option.some_inj.mp hc with rfl
            omega
      rcases hacc : maxVerStep acc y with _ | c
      · rcases acc with _ | b
        · exact absurd hacc (by simp [maxVerStep])
        · simp only [maxVerStep] at hacc
          split at hacc <;> exact absurd hacc (by simp)
      · rw [hacc] at h'
        exact Nat.le_trans (hstep c hacc) (foldl_maxVerStep_ge xs c r h')
    · exact foldl_maxVerStep_max xs (maxVerStep acc x) r h' y hy

theorem foldl_maxVerStep_some : ∀ (l : List TruthRow) (c : TruthRow),
    ∃ r, l.foldl maxVerStep (some c) = some r
  | [], c => ⟨c, rfl⟩
  | x :: xs, c => by
    show ∃ r, xs.foldl maxVerStep (maxVerStep (some c) x) = some r
    simp only [maxVerStep]
    split
    · exact foldl_maxVerStep_some xs x
    · exact foldl_maxVerStep_some xs c

/-- Under the invariant, the version read back by `get_latest_truth` is the
current ledger length (`0` when the key is absent). -/
theorem get_latest_truth_len (st : St) (org : Nat) (key : Str) (h : truthLedgerInv st) :
    (get_latest_truth st org key).2 = (ledgerVersions st org key).length := by
  have hinv := h org key
  unfold get_latest_truth
  rcases hl : st.truths.filter (fun r => r.org == org && r.key == key) with _ | ⟨x, xs⟩
  · rw [hl]
    have : ledgerVersions st org key = [] := by
      unfold ledgerVersions
      rw [hl]
      rfl
    rw [this]
    rfl
  · rcases foldl_maxVerStep_some xs x with ⟨r, hr⟩
    have hfold : (x :: xs).foldl maxVerStep none = some r := by
      show xs.foldl maxVerStep (maxVerStep none x) = some r
      exact hr
    rw [hl, hfold]
    show r.version = _
    have hlen : (ledgerVersions st org key).length = xs.length + 1 := by
      unfold ledgerVersions
      rw [hl]
      simp
    have hinv' : ledgerVersions st org key = List.range' 1 (xs.length + 1) := by
      rw [hinv, hlen]
    -- r is a member of the filtered list, so its version lies in range' 1 (n+1)
    have hrmem : r ∈ x :: xs := by
      rcases foldl_maxVerStep_mem (x :: xs) none r hfold with h1 | h1
      · exact absurd h1 (by simp)
      · exact h1
    have hrver : r.version ∈ List.range' 1 (xs.length + 1) := by
      have hm : r.version ∈ ledgerVersions st org key := by
        unfold ledgerVersions
        rw [hl]
        exact List.mem_map_of_mem _ hrmem
      rwa [hinv'] at hm
    rcases List.mem_range'.mp hrver with ⟨i, hi, hieq⟩
    -- the version n+1 occurs in the ledger, and r is maximal
    have hn : (xs.length + 1) ∈ ledgerVersions st org key := by
      rw [hinv']
      exact List.mem_range'.mpr ⟨xs.length, by omega, by omega⟩
    have hx : ∃ y ∈ x :: xs, y.version = xs.length + 1 := by
      unfold ledgerVersions at hn
      rw [hl] at hn
      rcases List.mem_map.mp hn with ⟨y, hy1, hy2⟩
      exact ⟨y, hy1, hy2⟩
    rcases hx with ⟨y, hymem, hyver⟩
    have hmax := foldl_maxVerStep_max (x :: xs) none r hfold y hymem
    rw [hlen]
    omega

/-- Appending one row changes exactly the ledger of its own (org, key). -/
theorem stepTruth_ledger (org : Nat) (st : St) (tr : Truth) (org' : Nat) (key' : Str) :
    ledgerVersions (stepTruth org st tr) org' key' =
      ledgerVersions st org' key' ++
        (if org == org' && tr.key == key' then
          [(get_latest_truth st org tr.key).2 + 1] else []) := by
  unfold ledgerVersions
  rw [stepTruth_truths]
  rw [List.filter_append, List.map_append]
  congr 1
  have hcond : ((TruthRow.mk org tr.key tr.value
      ((get_latest_truth st org tr.key).2 + 1)).org == org' &&
      (TruthRow.mk org tr.key tr.value ((get_latest_truth st org tr.key).2 + 1)).key
        == key') = (org == org' && tr.key == key') := rfl
  simp only [List.filter_cons, List.filter_nil, hcond]
  rcases hb : (org == org' && tr.key == key' : Bool) with _ | _
  · simp
  · simp

theorem stepTruth_inv (org : Nat) (st : St) (tr : Truth) (h : truthLedgerInv st) :
    truthLedgerInv (stepTruth org st tr) := by
  intro org' key'
  rw [stepTruth_ledger]
  by_cases hb : org = org' ∧ tr.key = key'
  · rcases hb with ⟨rfl, rfl⟩
    rw [if_pos (by simp)]
    obtain ⟨n, hn⟩ : ∃ n, ledgerVersions st org tr.key = List.range' 1 n :=
      ⟨_, h org tr.key⟩
    have hlen : (ledgerVersions st org tr.key).length = n := by
      rw [hn]
      simp
    rw [get_latest_truth_len st org tr.key h, hlen, hn]
    have hlen2 : (List.range' 1 n ++ [n + 1]).length = n + 1 := by
      simp
    rw [hlen2, range'_concat_one]
    have : (1 : Nat) + n = n + 1 := by omega
    rw [this]
  · rw [if_neg (by simpa [Bool.and_eq_true, beq_iff_eq] using hb)]
    simp only [List.append_nil]
    exact h org' key'

theorem foldl_stepTruth_inv (org : Nat) :
    ∀ (l : List Truth) (st : St), truthLedgerInv st →
      truthLedgerInv (l.foldl (stepTruth org) st)
  | [], _, h => h
  | tr :: rest, st, h =>
    foldl_stepTruth_inv org rest (stepTruth org st tr) (stepTruth_inv org st tr h)

/-- The ledger invariant only looks at the truths table. -/
theorem inv_of_truths_eq (st st' : St) (h : st'.truths = st.truths)
    (hi : truthLedgerInv st) : truthLedgerInv st' := by
  intro org key
  show (st'.truths.filter _).map _ = _
  unfold ledgerVersions
  rw [h]
  exact hi org key

/-- C1: the per-(org, key) version ledger always reads `1, 2, ..., n`: the
empty store satisfies the invariant, every ingest preserves it, each
processed truth appends exactly one row at `current version + 1` whatever the
conflict check said, and an absent key reads back version 0. -/
theorem truth_version_ledger :
    truthLedgerInv emptySt ∧
    (∀ (st : St) (org : Nat) (text source : Str),
      truthLedgerInv st → truthLedgerInv (ingest st org text source).1) ∧
    (∀ (org : Nat) (st : St) (tr : Truth),
      (stepTruth org st tr).truths = st.truths ++
        [TruthRow.mk org tr.key tr.value ((get_latest_truth st org tr.key).2 + 1)]) ∧
    (∀ (st : St) (org : Nat) (key : Str),
      st.truths.filter (fun r => r.org == org && r.key == key) = [] →
      get_latest_truth st org key = (none, 0)) := by
  refine ⟨?_, ?_, ?_, ?_⟩
  · intro org key
    rfl
  · intro st org text source h
    simp only [ingest]
    split
    · exact h
    · exact inv_of_truths_eq _ _ rfl
        (foldl_stepTruth_inv org _ _ (inv_of_truths_eq _ _ rfl h))
  · intro org st tr
    exact stepTruth_truths org st tr
  · intro st org key hf
    unfold get_latest_truth
    rw [hf]
    rfl

theorem truth_version_ledger_witness :
    truthLedgerInv (ingest emptySt 1 ("Launch Friday.".toList) ("Chat update".toList)).1 :=
  truth_version_ledger.2.1 emptySt 1 ("Launch Friday.".toList) ("Chat update".toList)
    truth_version_ledger.1

-- ---------------- C7 ----------------

/-- Number of edges of a given type. -/
def countType (es : List GEdge) (ty : Str) : Nat :=
  (es.filter (fun e => e.type == ty)).length

theorem countType_append (es es' : List GEdge) (ty : Str) :
    countType (es ++ es') ty = countType es ty + countType es' ty := by
  simp [countType, List.filter_append]

theorem countType_fanout {α : Type} (ty : Str) (mk : α → GEdge)
    (hmk : ∀ p, (mk p).type = ty) : ∀ l : List α, countType (l.map mk) ty = l.length
  | [] => rfl
  | p :: rest => by
    have ih := countType_fanout ty mk hmk rest
    simp only [List.map_cons, countType, List.filter_cons] at ih ⊢
    rw [hmk p]
    simp only [beq_self_eq_true, if_pos, List.length_cons]
    omega

theorem countType_single_ne (e : GEdge) (ty ty' : Str) (hty : e.type = ty')
    (hne : (ty' == ty) = false) : countType [e] ty = 0 := by
  simp [countType, List.filter_cons, hty, hne]

theorem nodup_append_one (l : List Str) (a : Str) (h1 : l.Nodup) (h2 : a ∉ l) :
    (l ++ [a]).Nodup := by
  refine List.nodup_append.mpr ⟨h1, List.nodup_singleton a, ?_⟩
  intro x hx hx2
  rcases List.mem_singleton.mp hx2 with rfl
  exact h2 hx

theorem add_node_nodup (ns : List GNode) (n : Str) (typ : Str)
    (h : (ns.map GNode.id).Nodup) : ((add_node ns n typ).map GNode.id).Nodup := by
  unfold add_node
  split
  · exact h
  · rename_i hany
    rw [List.map_append]
    refine nodup_append_one _ _ h ?_
    intro hmem
    rcases List.mem_map.mp hmem with ⟨x, hx, hxid⟩
    have : ns.any (fun x => x.id == n) = true :=
      List.any_eq_true.mpr ⟨x, hx, by simp [hxid]⟩
    exact hany this

theorem add_node_mem_mono (ns : List GNode) (n : Str) (typ : Str) (m : Str)
    (h : m ∈ ns.map GNode.id) : m ∈ (add_node ns n typ).map GNode.id := by
  unfold add_node
  split
  · exact h
  · rw [List.map_append]
    exact List.mem_append_left _ h

theorem add_node_mem_self (ns : List GNode) (n : Str) (typ : Str) :
    n ∈ (add_node ns n typ).map GNode.id := by
  unfold add_node
  split
  · rename_i hany
    rcases List.any_eq_true.mp hany with ⟨x, hx, hxid⟩
    have : x.id = n := by simpa using hxid
    exact this ▸ List.mem_map_of_mem _ hx
  · rw [List.map_append]
    exact List.mem_append_right _ (by simp)

theorem graphTaskStep_nodup (routing : List Str) (st : List GNode × List GEdge)
    (tk : TaskItem) (h : (st.1.map GNode.id).Nodup) :
    ((graphTaskStep routing st tk).1.map GNode.id).Nodup := by
  simp only [graphTaskStep]
  split
  · exact add_node_nodup _ _ _ (add_node_nodup _ _ _ h)
  · exact add_node_nodup _ _ _ h

theorem graphTaskStep_mem_mono (routing : List Str) (st : List GNode × List GEdge)
    (tk : TaskItem) (m : Str) (h : m ∈ st.1.map GNode.id) :
    m ∈ (graphTaskStep routing st tk).1.map GNode.id := by
  simp only [graphTaskStep]
  split
  · exact add_node_mem_mono _ _ _ _ (add_node_mem_mono _ _ _ _ h)
  · exact add_node_mem_mono _ _ _ _ h

theorem graphTaskStep_mem_self (routing : List Str) (st : List GNode × List GEdge)
    (tk : TaskItem) : effLabel tk ∈ (graphTaskStep routing st tk).1.map GNode.id := by
  simp only [graphTaskStep]
  split
  · exact add_node_mem_mono _ _ _ _ (add_node_mem_self _ _ _)
  · exact add_node_mem_self _ _ _

theorem countType_map_ne {α : Type} (ty ty' : Str) (mk : α → GEdge)
    (hmk : ∀ p, (mk p).type = ty') (hne : (ty' == ty) = false) :
    ∀ l : List α, countType (l.map mk) ty = 0
  | [] => rfl
  | p :: rest => by
    have ih := countType_map_ne ty ty' mk hmk hne rest
    simp only [List.map_cons, countType, List.filter_cons] at ih ⊢
    rw [hmk p, hne]
    simpa using ih

theorem graphTaskStep_counts (routing : List Str) (st : List GNode × List GEdge)
    (tk : TaskItem) :
    countType (graphTaskStep routing st tk).2 ("notified_about".toList) =
      countType st.2 ("notified_about".toList) + routing.length ∧
    countType (graphTaskStep routing st tk).2 ("context".toList) =
      countType st.2 ("context".toList) := by
  simp only [graphTaskStep]
  split
  · constructor
    · show countType ((st.2 ++ _) ++ [_]) _ = _
      rw [countType_append, countType_append,
        countType_fanout ("notified_about".toList) _ (fun _ => rfl) routing,
        countType_single_ne _ _ ("blocked_by".toList) rfl (by decide)]
      omega
    · show countType ((st.2 ++ _) ++ [_]) _ = _
      rw [countType_append, countType_append,
        countType_map_ne ("context".toList) ("notified_about".toList) _ (fun _ => rfl)
          (by decide) routing,
        countType_single_ne _ _ ("blocked_by".toList) rfl (by decide)]
      omega
  · constructor
    · show countType (st.2 ++ _) _ = _
      rw [countType_append,
        countType_fanout ("notified_about".toList) _ (fun _ => rfl) routing]
    · show countType (st.2 ++ _) _ = _
      rw [countType_append,
        countType_map_ne ("context".toList) ("notified_about".toList) _ (fun _ => rfl)
          (by decide) routing]
      omega

theorem graphTruthStep_nodup (tasks : List TaskItem) (st : List GNode × List GEdge)
    (tr : Truth) (h : (st.1.map GNode.id).Nodup) :
    ((graphTruthStep tasks st tr).1.map GNode.id).Nodup := by
  simp only [graphTruthStep]
  exact add_node_nodup _ _ _ h

theorem graphTruthStep_mem_mono (tasks : List TaskItem) (st : List GNode × List GEdge)
    (tr : Truth) (m : Str) (h : m ∈ st.1.map GNode.id) :
    m ∈ (graphTruthStep tasks st tr).1.map GNode.id := by
  simp only [graphTruthStep]
  exact add_node_mem_mono _ _ _ _ h

theorem graphTruthStep_counts (tasks : List TaskItem) (st : List GNode × List GEdge)
    (tr : Truth) :
    countType (graphTruthStep tasks st tr).2 ("notified_about".toList) =
      countType st.2 ("notified_about".toList) ∧
    countType (graphTruthStep tasks st tr).2 ("context".toList) =
      countType st.2 ("context".toList) + tasks.length := by
  simp only [graphTruthStep]
  constructor
  · show countType (st.2 ++ _) _ = _
    rw [countType_append,
      countType_map_ne ("notified_about".toList) ("context".toList) _ (fun _ => rfl)
        (by decide) tasks]
    omega
  · show countType (st.2 ++ _) _ = _
    rw [countType_append,
      countType_fanout ("context".toList) _ (fun _ => rfl) tasks]

theorem taskFold_nodup (routing : List Str) : ∀ (ts : List TaskItem)
    (st : List GNode × List GEdge), (st.1.map GNode.id).Nodup →
    (((ts.foldl (graphTaskStep routing) st).1).map GNode.id).Nodup
  | [], _, h => h
  | tk :: rest, st, h =>
    taskFold_nodup routing rest _ (graphTaskStep_nodup routing st tk h)

theorem taskFold_mem_mono (routing : List Str) : ∀ (ts : List TaskItem)
    (st : List GNode × List GEdge) (m : Str), m ∈ st.1.map GNode.id →
    m ∈ ((ts.foldl (graphTaskStep routing) st).1).map GNode.id
  | [], _, _, h => h
  | tk :: rest, st, m, h =>
    taskFold_mem_mono routing rest _ m (graphTaskStep_mem_mono routing st tk m h)

theorem taskFold_mem (routing : List Str) : ∀ (ts : List TaskItem)
    (st : List GNode × List GEdge) (tk : TaskItem), tk ∈ ts →
    effLabel tk ∈ ((ts.foldl (graphTaskStep routing) st).1).map GNode.id
  | [], _, tk, h => absurd h (List.not_mem_nil tk)
  | x :: rest, st, tk, h => by
    rcases List.mem_cons.mp h with rfl | h
    · exact taskFold_mem_mono routing rest _ _ (graphTaskStep_mem_self routing st tk)
    · exact taskFold_mem routing rest _ tk h

theorem taskFold_counts (routing : List Str) : ∀ (ts : List TaskItem)
    (st : List GNode × List GEdge),
    countType ((ts.foldl (graphTaskStep routing) st).2) ("notified_about".toList) =
      countType st.2 ("notified_about".toList) + routing.length * ts.length ∧
    countType ((ts.foldl (graphTaskStep routing) st).2) ("context".toList) =
      countType st.2 ("context".toList)
  | [], st => by simp
  | tk :: rest, st => by
    have ih := taskFold_counts routing rest (graphTaskStep routing st tk)
    have hstep := graphTaskStep_counts routing st tk
    constructor
    · show countType ((rest.foldl (graphTaskStep routing) _).2) _ = _
      rw [ih.1, hstep.1, List.length_cons, Nat.mul_succ]
      omega
    · show countType ((rest.foldl (graphTaskStep routing) _).2) _ = _
      rw [ih.2, hstep.2]

theorem truthFold_nodup (tasks : List TaskItem) : ∀ (l : List Truth)
    (st : List GNode × List GEdge), (st.1.map GNode.id).Nodup →
    (((l.foldl (graphTruthStep tasks) st).1).map GNode.id).Nodup
  | [], _, h => h
  | tr :: rest, st, h =>
    truthFold_nodup tasks rest _ (graphTruthStep_nodup tasks st tr h)

theorem truthFold_mem_mono (tasks : List TaskItem) : ∀ (l : List Truth)
    (st : List GNode × List GEdge) (m : Str), m ∈ st.1.map GNode.id →
    m ∈ ((l.foldl (graphTruthStep tasks) st).1).map GNode.id
  | [], _, _, h => h
  | tr :: rest, st, m, h =>
    truthFold_mem_mono tasks rest _ m (graphTruthStep_mem_mono tasks st tr m h)

theorem truthFold_counts (tasks : List TaskItem) : ∀ (l : List Truth)
    (st : List GNode × List GEdge),
    countType ((l.foldl (graphTruthStep tasks) st).2) ("notified_about".toList) =
      countType st.2 ("notified_about".toList) ∧
    countType ((l.foldl (graphTruthStep tasks) st).2) ("context".toList) =
      countType st.2 ("context".toList) + tasks.length * l.length
  | [], st => by simp
  | tr :: rest, st => by
    have ih := truthFold_counts tasks rest (graphTruthStep tasks st tr)
    have hstep := graphTruthStep_counts tasks st tr
    constructor
    · show countType ((rest.foldl (graphTruthStep tasks) _).2) _ = _
      rw [ih.1, hstep.1]
    · show countType ((rest.foldl (graphTruthStep tasks) _).2) _ = _
      rw [ih.2, hstep.2, List.length_cons, Nat.mul_succ]
      omega

theorem peopleFold_nodup (routing : List Str) : ∀ (acc : List GNode),
    (acc.map GNode.id).Nodup →
    (((routing.foldl (fun ns p => add_node ns p ("person".toList)) acc)).map GNode.id).Nodup := by
  induction routing with
  | nil => intro acc h; exact h
  | cons p rest ih =>
    intro acc h
    exact ih _ (add_node_nodup acc p _ h)

theorem filter_id_count : ∀ (ns : List GNode) (l : Str),
    (ns.map GNode.id).Nodup → l ∈ ns.map GNode.id →
    (ns.filter (fun node => node.id == l)).length = 1
  | [], l, _, hmem => absurd hmem (by simp)
  | x :: xs, l, hnodup, hmem => by
    rw [List.map_cons] at hnodup hmem
    rcases hx : (x.id == l : Bool) with _ | _
    · have hlx : l ≠ x.id := by
        intro he
        rw [he] at hx
        simp at hx
      have hmem' : l ∈ xs.map GNode.id := by
        rcases List.mem_cons.mp hmem with h | h
        · exact absurd h hlx
        · exact h
      have hnodup' : (xs.map GNode.id).Nodup := (List.nodup_cons.mp hnodup).2
      have ih := filter_id_count xs l hnodup' hmem'
      simp only [List.filter_cons, hx]
      simpa using ih
    · have hlx : x.id = l := by simpa using hx
      have hnotin : x.id ∉ xs.map GNode.id :=
        (List.nodup_cons.mp hnodup).1
      have hfilter : xs.filter (fun node => node.id == l) = [] := by
        rw [List.filter_eq_nil_iff]
        intro a ha hcontra
        have : a.id = l := by simpa using hcontra
        exact hnotin (by
          rw [hlx]
          exact this ▸ List.mem_map_of_mem _ ha)
      simp only [List.filter_cons, hx, hfilter]
      rfl

/-- C7: in `build_graph` node ids are deduplicated by exact string identity
(a later insertion with an existing id is a no-op), so the node list is
duplicate-free and every task label owns exactly one node, while edges are
never deduplicated: there are exactly `|routing| * |tasks|` notified_about
edges and `|truths| * |tasks|` context edges. -/
theorem build_graph_spec (text : Str) (tasks : List TaskItem) (routing : List Str)
    (truths : List Truth) :
    (((build_graph text tasks routing truths).1).map GNode.id).Nodup ∧
    (∀ tk ∈ tasks, ((build_graph text tasks routing truths).1.filter
        (fun node => node.id == effLabel tk)).length = 1) ∧
    countType (build_graph text tasks routing truths).2 ("notified_about".toList) =
      routing.length * tasks.length ∧
    countType (build_graph text tasks routing truths).2 ("context".toList) =
      truths.length * tasks.length ∧
    (∀ (ns : List GNode) (n typ : Str), ns.any (fun x => x.id == n) = true →
      add_node ns n typ = ns) := by
  have hppl := peopleFold_nodup routing [] (by simp)
  have hnodes : (((build_graph text tasks routing truths).1).map GNode.id).Nodup := by
    simp only [build_graph]
    exact truthFold_nodup tasks truths _ (taskFold_nodup routing tasks _ hppl)
  refine ⟨hnodes, ?_, ?_, ?_, ?_⟩
  · intro tk htk
    refine filter_id_count _ _ hnodes ?_
    simp only [build_graph]
    exact truthFold_mem_mono tasks truths _ _ (taskFold_mem routing tasks _ tk htk)
  · simp only [build_graph]
    rw [(truthFold_counts tasks truths _).1, (taskFold_counts routing tasks _).1]
    show countType ([] : List GEdge) _ + _ = _
    simp [countType]
  · simp only [build_graph]
    rw [(truthFold_counts tasks truths _).2, (taskFold_counts routing tasks _).2]
    show countType ([] : List GEdge) _ + _ = _
    simp only [countType, List.filter_nil, List.length_nil, Nat.zero_add]
    exact Nat.mul_comm tasks.length truths.length
  · intro ns n typ h
    simp [add_node, h]

theorem build_graph_spec_witness :
    TaskItem.mk ("Launch readiness".toList) none none none none ∈
      [TaskItem.mk ("Launch readiness".toList) none none none none,
       TaskItem.mk ("Launch readiness".toList) none none none none] ∧
    ((build_graph ("launch".toList)
        [TaskItem.mk ("Launch readiness".toList) none none none none,
         TaskItem.mk ("Launch readiness".toList) none none none none]
        [("Project Manager".toList)]
        [Truth.mk ("launch_date".toList) ("Friday".toList)]).1.filter
      (fun node => node.id == effLabel
        (TaskItem.mk ("Launch readiness".toList) none none none none))).length = 1 :=
  ⟨by decide,
    (build_graph_spec ("launch".toList)
      [TaskItem.mk ("Launch readiness".toList) none none none none,
       TaskItem.mk ("Launch readiness".toList) none none none none]
      [("Project Manager".toList)]
      [Truth.mk ("launch_date".toList) ("Friday".toList)]).2.1
      (TaskItem.mk ("Launch readiness".toList) none none none none) (by decide)⟩

-- ---------------- C10 ----------------

/-- A word-bounded occurrence of `d` at position `j` of `s`, relative to a
scanner state in which `prevW` tells whether the character just before `s`
is a word character (so `\b` holds at position 0 of `s` iff `prevW = false`;
every weekday starts with a word character, making the leading `\b`
equivalent to "previous character is not a word character"). -/
def relOcc (prevW : Bool) (s : Str) (j : Nat) (d : Str) : Prop :=
  ∃ pre post, s = pre ++ d ++ post ∧ pre.length = j ∧
    (match pre.getLast? with
     | none => prevW = false
     | some c => isWordChar c = false) ∧
    (∀ c ∈ post.head?, isWordChar c = false)

/-- A word-bounded occurrence of the weekday `d` at position `i` of `t`. -/
def occursWB (t : Str) (i : Nat) (d : Str) : Prop := relOcc false t i d

theorem days_ne_nil : ∀ d ∈ DAYS, d ≠ [] := by decide

theorem days_prefix_free : ∀ d ∈ DAYS, ∀ e ∈ DAYS, d.isPrefixOf e = true → d = e := by
  decide

theorem find?_unique {α : Type} : ∀ (l : List α) (p : α → Bool) (d : α),
    d ∈ l → p d = true → (∀ e ∈ l, p e = true → e = d) → l.find? p = some d
  | [], _, d => by
    intro hd _ _
    exact absurd hd (List.not_mem_nil d)
  | x :: xs, p, d => by
    intro hd hp huniq
    rcases hx : p x with _ | _
    · have hdx : d ≠ x := by
        intro he
        rw [he, hx] at hp
        exact Bool.false_ne_true hp
      have hd' : d ∈ xs := by
        rcases List.mem_cons.mp hd with h | h
        · exact absurd h hdx
        · exact h
      rw [List.find?_cons_of_neg _ (by simp [hx])]
      exact find?_unique xs p d hd' hp (fun e he hpe => huniq e (List.mem_cons_of_mem x he) hpe)
    · rw [List.find?_cons_of_pos _ hx]
      rw [huniq x (List.mem_cons_self x xs) hx]

theorem andE {a b : Bool} (h : (a && b) = true) : a = true ∧ b = true := by
  simp only [Bool.and_eq_true] at h
  exact h

theorem relOcc_zero (prevW : Bool) (s : Str) (d : Str) (h : relOcc prevW s 0 d) :
    prevW = false ∧ ∃ post, s = d ++ post ∧ (∀ c ∈ post.head?, isWordChar c = false) := by
  rcases h with ⟨pre, post, heq, hlen, hb, ha⟩
  have hpre : pre = [] := List.length_eq_zero.mp hlen
  subst hpre
  refine ⟨hb, post, by simpa using heq, ha⟩

theorem relOcc_unlift (prevW : Bool) (c : Char) (rest : Str) (j : Nat) (e : Str)
    (h : relOcc prevW (c :: rest) (j + 1) e) : relOcc (isWordChar c) rest j e := by
  rcases h with ⟨pre, post, heq, hlen, hb, ha⟩
  rcases pre with _ | ⟨c0, pre'⟩
  · exact absurd hlen (by simp)
  · have hc0 : c0 = c := by
      have h2 := congrArg (fun l => l.headD ' ') heq
      simpa using h2.symm
    subst hc0
    have hrest : rest = pre' ++ e ++ post := by
      have h2 := congrArg List.tail heq
      simpa using h2
    refine ⟨pre', post, hrest, by simpa using hlen, ?_, ha⟩
    rcases hp : pre' with _ | ⟨q, qs⟩
    · rw [hp] at hb
      simpa using hb
    · rw [hp] at hb
      rw [List.getLast?_cons_cons] at hb
      exact hb

theorem relOcc_lift (prevW : Bool) (c : Char) (rest : Str) (j : Nat) (e : Str)
    (h : relOcc (isWordChar c) rest j e) : relOcc prevW (c :: rest) (j + 1) e := by
  rcases h with ⟨pre, post, heq, hlen, hb, ha⟩
  refine ⟨c :: pre, post, by simp [heq], by simp [hlen], ?_, ha⟩
  rcases hp : pre with _ | ⟨q, qs⟩
  · subst hp
    simpa using hb
  · rw [hp] at hb
    rw [List.getLast?_cons_cons]
    exact hb

/-- If a weekday matches at the head of `s` (with its trailing boundary),
that is a word-bounded occurrence at position 0. -/
theorem dayPred_to_relOcc (s : Str) (e : Str)
    (hpref : e.isPrefixOf s = true) (hba : boundaryAfter (s.drop e.length) = true) :
    relOcc false s 0 e := by
  rcases List.isPrefixOf_iff_prefix.mp hpref with ⟨post, hpost⟩
  have hdrop : s.drop e.length = post := by
    rw [← hpost]
    exact List.drop_left e post
  refine ⟨[], post, by simpa using hpost.symm, rfl, rfl, ?_⟩
  intro c hc
  rw [hdrop] at hba
  rcases post with _ | ⟨p, ps⟩
  · exact absurd hc (by simp)
  · have hcp : p = c := by simpa using hc
    subst hcp
    simpa [boundaryAfter] using hba

theorem findDayAux_leftmost : ∀ (s : Str) (prevW : Bool) (j : Nat) (d : Str),
    d ∈ DAYS → relOcc prevW s j d →
    (∀ (j' : Nat) (e : Str), e ∈ DAYS → relOcc prevW s j' e → j ≤ j') →
    findDayAux prevW s = some d
  | [], _, j, d => by
    intro hd hocc _
    exfalso
    rcases hocc with ⟨pre, post, heq, _, _, _⟩
    have hnil : d = [] := by
      have h2 := heq.symm
      rcases List.append_eq_nil.mp h2 with ⟨h3, _⟩
      exact (List.append_eq_nil.mp h3).2
    exact days_ne_nil d hd hnil
  | c :: rest, prevW, j, d => by
    intro hd hocc hmin
    rcases hpw : prevW with _ | _
    · subst hpw
      rcases j with _ | j'
      · -- occurrence at the very head: the alternation finds exactly d
        rcases relOcc_zero false _ d hocc with ⟨_, post, heq, ha⟩
        have hpref : d.isPrefixOf (c :: rest) = true := by
          rw [List.isPrefixOf_iff_prefix]
          exact ⟨post, heq.symm⟩
        have hdrop : (c :: rest).drop d.length = post := by
          rw [heq]
          exact List.drop_left d post
        have hba : boundaryAfter ((c :: rest).drop d.length) = true := by
          rw [hdrop]
          rcases post with _ | ⟨p, ps⟩
          · rfl
          · have hw : isWordChar p = false := ha p (by simp)
            simp [boundaryAfter, hw]
        have hday : dayHere (c :: rest) = some d := by
          unfold dayHere
          refine find?_unique DAYS _ d hd (by rw [hpref, hba]; rfl) ?_
          intro e he hpe
          have hepref : e.isPrefixOf (c :: rest) = true := (andE hpe).1
          have he2 : e <+: (c :: rest) := List.isPrefixOf_iff_prefix.mp hepref
          have hd2 : d <+: (c :: rest) := List.isPrefixOf_iff_prefix.mp hpref
          rcases List.prefix_or_prefix_of_prefix he2 hd2 with h | h
          · exact days_prefix_free e he d hd (List.isPrefixOf_iff_prefix.mpr h)
          · exact (days_prefix_free d hd e he (List.isPrefixOf_iff_prefix.mpr h)).symm
        show (match dayHere (c :: rest) with
          | some d => some d
          | none => findDayAux (isWordChar c) rest) = some d
        rw [hday]
      · -- no occurrence at the head: the alternation fails here, scan on
        have hnone : dayHere (c :: rest) = none := by
          rcases hday : dayHere (c :: rest) with _ | e
          · rfl
          · exfalso
            have hmem := List.mem_of_find?_eq_some hday
            have hpe := List.find?_some hday
            have hocc0 : relOcc false (c :: rest) 0 e :=
              dayPred_to_relOcc _ _ (andE hpe).1 (andE hpe).2
            have hle := hmin 0 e hmem hocc0
            omega
        have hstep : findDayAux false (c :: rest) = findDayAux (isWordChar c) rest := by
          show (match dayHere (c :: rest) with
            | some d => some d
            | none => findDayAux (isWordChar c) rest) = _
          rw [hnone]
        rw [hstep]
        refine findDayAux_leftmost rest (isWordChar c) j' d hd
          (relOcc_unlift false c rest j' d hocc) ?_
        intro j'' e he hocc''
        have hle := hmin (j'' + 1) e he (relOcc_lift false c rest j'' e hocc'')
        omega
    · subst hpw
      have hstep : findDayAux true (c :: rest) = findDayAux (isWordChar c) rest := rfl
      rcases j with _ | j'
      · exfalso
        rcases relOcc_zero true _ d hocc with ⟨hcontra, _⟩
        exact absurd hcontra (by decide)
      · rw [hstep]
        refine findDayAux_leftmost rest (isWordChar c) j' d hd
          (relOcc_unlift true c rest j' d hocc) ?_
        intro j'' e he hocc''
        have hle := hmin (j'' + 1) e he (relOcc_lift true c rest j'' e hocc'')
        omega

/-- The leftmost word-bounded weekday determines `find_day`. -/
theorem find_day_leftmost (t : Str) (i : Nat) (d : Str) (hd : d ∈ DAYS)
    (hocc : occursWB t i d)
    (hmin : ∀ (j : Nat) (e : Str), e ∈ DAYS → occursWB t j e → i ≤ j) :
    find_day t = some (pyCapitalize d) := by
  unfold find_day
  rw [findDayAux_leftmost t false i d hd hocc hmin]
  rfl

theorem setLastOwner_mem : ∀ (ts : List TaskItem) (nm : Str) (tk : TaskItem),
    tk ∈ setLastOwner ts nm → ∃ tb ∈ ts, tk.task = tb.task ∧ tk.deadline = tb.deadline
  | [], _, tk => by
    intro h
    exact absurd h (List.not_mem_nil tk)
  | [t], _, tk => by
    intro h
    rcases List.mem_singleton.mp h with rfl
    exact ⟨t, List.mem_singleton_self t, rfl, rfl⟩
  | t :: t2 :: ts, nm, tk => by
    intro h
    have h' : tk ∈ t :: setLastOwner (t2 :: ts) nm := h
    rcases List.mem_cons.mp h' with rfl | h2
    · exact ⟨tk, List.mem_cons_self _ _, rfl, rfl⟩
    · rcases setLastOwner_mem (t2 :: ts) nm tk h2 with ⟨tb, htb, he1, he2⟩
      exact ⟨tb, List.mem_cons_of_mem t htb, he1, he2⟩

theorem applyOwner_mem (text : Str) (dl : Option Str) (ts : List TaskItem) (tk : TaskItem)
    (h : tk ∈ applyOwner text dl ts) :
    (∃ tb ∈ ts, tk.task = tb.task ∧ tk.deadline = tb.deadline) ∨
      tk.task = "Owned item".toList := by
  unfold applyOwner at h
  split at h
  · exact Or.inl ⟨tk, h, rfl, rfl⟩
  · split at h
    · rcases List.mem_singleton.mp h with rfl
      exact Or.inr rfl
    · exact Or.inl (setLastOwner_mem _ _ tk h)

theorem actionAt_mem (s3 : Str) (a : Str) (rem : Str) (h : actionAt s3 = some (a, rem)) :
    a ∈ actorActions := by
  unfold actionAt at h
  split at h
  · rename_i a0 hfind
    rcases Prod.mk.injEq .. ▸ Option.some_inj.mp h with ⟨rfl, _⟩
    exact List.mem_of_find?_eq_some hfind
  · exact absurd h (by simp)

theorem actorTail_action (s : Str) (a : Str) (rem : Str) (h : actorTail s = some (a, rem)) :
    a ∈ actorActions := by
  unfold actorTail at h
  split at h
  · exact absurd h (by simp)
  · split at h
    · exact absurd h (by simp)
    · split at h
      · exact absurd h (by simp)
      · exact actionAt_mem _ _ _ h

theorem actorSecond_action (first : Str) (rest1 : Str) (nm a rem : Str)
    (h : actorSecond first rest1 = some (nm, a, rem)) : a ∈ actorActions := by
  unfold actorSecond at h
  split at h
  · split at h
    · split at h
      · exact absurd h (by simp)
      · split at h
        · rename_i a0 rem0 htail
          rcases Option.some_inj.mp h with h2
          have ha : a = a0 := by
            have := congrArg (fun p => p.2.1) h2
            simpa using this.symm
          rw [ha]
          exact actorTail_action _ _ _ htail
        · exact absurd h (by simp)
    · exact absurd h (by simp)
  · exact absurd h (by simp)

theorem actorHere_action (s : Str) (nm a rem : Str)
    (h : actorHere s = some (nm, a, rem)) : a ∈ actorActions := by
  unfold actorHere at h
  split at h
  · exact absurd h (by simp)
  · split at h
    · split at h
      · exact absurd h (by simp)
      · split at h
        · rename_i res hsec
          rw [h] at hsec
          exact actorSecond_action _ _ _ _ _ hsec
        · split at h
          · rename_i a0 rem0 htail
            rcases Option.some_inj.mp h with h2
            have ha : a = a0 := by
              have := congrArg (fun p => p.2.1) h2
              simpa using this.symm
            rw [ha]
            exact actorTail_action _ _ _ htail
          · exact absurd h (by simp)
    · exact absurd h (by simp)

theorem findActorsAux_action : ∀ (fuel : Nat) (prevW : Bool) (s : Str)
    (p : Str × Str), p ∈ findActorsAux fuel prevW s → p.2 ∈ actorActions
  | 0, _, _, p => by
    intro h
    exact absurd h (List.not_mem_nil p)
  | _ + 1, _, [], p => by
    intro h
    exact absurd h (List.not_mem_nil p)
  | fuel + 1, prevW, c :: rest, p => by
    intro h
    unfold findActorsAux at h
    split at h
    · exact findActorsAux_action fuel _ rest p h
    · split at h
      · rename_i nm a rem hhere
        rcases List.mem_cons.mp h with rfl | h2
        · exact actorHere_action _ _ _ _ hhere
        · exact findActorsAux_action fuel _ rem p h2
      · exact findActorsAux_action fuel _ rest p h

theorem namedTasks_label (text : Str) (dl : Option Str) (tk : TaskItem)
    (h : tk ∈ namedTasks text dl) :
    ∃ a ∈ actorActions, tk.task = pyCapitalize a ++ " task".toList := by
  unfold namedTasks at h
  rcases List.mem_map.mp h with ⟨p, hp, heq⟩
  refine ⟨p.2, findActorsAux_action _ _ _ p hp, ?_⟩
  rw [← heq]

theorem actor_label_ne : ∀ a ∈ actorActions,
    pyCapitalize a ++ " task".toList ≠ "Launch readiness".toList := by
  decide

theorem cap_days_ne : ∀ d ∈ DAYS, (pyCapitalize d).isEmpty = false := by
  decide

/-- With a weekday found, the launch task's deadline is that weekday. -/
theorem launch_task_deadline (text : Str) (cd : Str) (hcd : cd.isEmpty = false)
    (hfd : find_day (low text) = some cd) :
    ∀ tk ∈ extract_tasks text, tk.task = "Launch readiness".toList →
      tk.deadline = some cd := by
  intro tk htk hlabel
  simp only [extract_tasks] at htk
  rcases List.mem_append.mp htk with h | h
  · rcases applyOwner_mem _ _ _ _ h with ⟨tb, htb, hteq, hdeq⟩ | howned
    · rcases List.mem_append.mp htb with hb | hb2
      · rcases List.mem_append.mp hb with hb1 | hb1
        · exfalso
          unfold blockerTasks at hb1
          split at hb1
          · rcases List.mem_singleton.mp hb1 with rfl
            rw [hteq] at hlabel
            have hne : ("Resolve blocker / dependency".toList : Str) =
              "Launch readiness".toList := hlabel
            exact absurd hne (by decide)
          · exact absurd hb1 (List.not_mem_nil tb)
        · unfold launchTasks at hb1
          split at hb1
          · rcases List.mem_singleton.mp hb1 with rfl
            rw [hdeq]
            show pyOr (find_day (low text)) _ = some cd
            rw [hfd]
            simp [pyOr, hcd]
          · exact absurd hb1 (List.not_mem_nil tb)
      · exfalso
        unfold submissionTasks at hb2
        split at hb2
        · rcases List.mem_singleton.mp hb2 with rfl
          rw [hteq] at hlabel
          have hne : ("Prepare submission / deliverable".toList : Str) =
            "Launch readiness".toList := hlabel
          exact absurd hne (by decide)
        · exact absurd hb2 (List.not_mem_nil tb)
    · exfalso
      rw [howned] at hlabel
      exact absurd hlabel (by decide)
  · exfalso
    rcases namedTasks_label _ _ _ h with ⟨a, ha, hlab⟩
    rw [hlabel] at hlab
    exact actor_label_ne a ha hlab.symm

/-- With a weekday found and no nearer-term deadline cue, the shared slot is
that weekday. -/
theorem sharedDeadline_weekday (t : Str) (cd : Str)
    (hfd : find_day t = some cd)
    (h1 : containsSub ("tomorrow".toList) t = false)
    (h2 : containsSub ("today".toList) t = false)
    (h3 : containsSub ("eod".toList) t = false)
    (h4 : containsSub ("end of day".toList) t = false)
    (h5 : containsSub ("by".toList) t = true ∨ containsSub ("deadline".toList) t = true) :
    sharedDeadline t = some cd := by
  have hor : (containsSub ("by".toList) t || containsSub ("deadline".toList) t) = true := by
    rcases h5 with h | h
    · rw [h]
      rfl
    · rw [h, Bool.or_true]
  have hgoal : sharedDeadline t =
      (if (containsSub ("by".toList) t || containsSub ("deadline".toList) t) = true then
        some cd else none) := by
    unfold sharedDeadline
    rw [h1, h2, h3, h4, hfd]
    rfl
  rw [hgoal, hor]
  rfl

/-- C10: when the lowercased text has a first (leftmost) word-bounded weekday
mention `d`, every place a weekday is consulted uses exactly that weekday:
`_find_day` returns it capitalized, the `launch_date` truth (when emitted)
carries it, the "Launch readiness" task's own deadline is it, and the shared
deadline slot resolves to it in its weekday branch. -/
theorem weekday_first_occurrence (text : Str) (i : Nat) (d : Str)
    (hd : d ∈ DAYS) (hocc : occursWB (low text) i d)
    (hmin : ∀ (j : Nat) (e : Str), e ∈ DAYS → occursWB (low text) j e → i ≤ j) :
    find_day (low text) = some (pyCapitalize d) ∧
    (∀ tr ∈ extract_truths text, tr.key = "launch_date".toList →
      tr.value = pyCapitalize d) ∧
    (∀ tk ∈ extract_tasks text, tk.task = "Launch readiness".toList →
      tk.deadline = some (pyCapitalize d)) ∧
    (containsSub ("tomorrow".toList) (low text) = false →
     containsSub ("today".toList) (low text) = false →
     containsSub ("eod".toList) (low text) = false →
     containsSub ("end of day".toList) (low text) = false →
     (containsSub ("by".toList) (low text) = true ∨
       containsSub ("deadline".toList) (low text) = true) →
     sharedDeadline (low text) = some (pyCapitalize d)) := by
  have hfd : find_day (low text) = some (pyCapitalize d) :=
    find_day_leftmost (low text) i d hd hocc hmin
  refine ⟨hfd, ?_, ?_, ?_⟩
  · intro tr htr hkey
    unfold extract_truths at htr
    simp only [List.mem_append] at htr
    rcases htr with ((h | h) | h) | h
    · split at h
      · split at h
        · rcases List.mem_singleton.mp h with rfl
          rename_i day hday
          rw [hfd] at hday
          exact (Option.some_inj.mp hday).symm
        · exact absurd h (List.not_mem_nil tr)
      · exact absurd h (List.not_mem_nil tr)
    · exfalso
      split at h
      · rcases List.mem_singleton.mp h with rfl
        have hne : ("priority".toList : Str) = "launch_date".toList := hkey
        exact absurd hne (by decide)
      · exact absurd h (List.not_mem_nil tr)
    · exfalso
      split at h
      · rcases List.mem_singleton.mp h with rfl
        have hne : ("decision_status".toList : Str) = "launch_date".toList := hkey
        exact absurd hne (by decide)
      · exact absurd h (List.not_mem_nil tr)
    · exfalso
      split at h
      · rcases List.mem_singleton.mp h with rfl
        have hne : ("scope".toList : Str) = "launch_date".toList := hkey
        exact absurd hne (by decide)
      · exact absurd h (List.not_mem_nil tr)
  · exact launch_task_deadline text (pyCapitalize d) (cap_days_ne d hd) hfd
  · intro h1 h2 h3 h4 h5
    exact sharedDeadline_weekday (low text) (pyCapitalize d) hfd h1 h2 h3 h4 h5

theorem occursWB_take (t : Str) (j : Nat) (e : Str) (h : occursWB t j e) :
    (t.drop j).take e.length = e := by
  rcases h with ⟨pre, post, heq, hlen, _, _⟩
  rw [heq, ← hlen, List.append_assoc, List.drop_left, List.take_left]

theorem weekday_first_occurrence_witness :
    ("tuesday".toList ∈ DAYS) ∧
    occursWB (low ("Launch by tuesday or monday".toList)) 10 ("tuesday".toList) ∧
    find_day (low ("Launch by tuesday or monday".toList)) =
      some (pyCapitalize ("tuesday".toList)) ∧
    (∀ tr ∈ extract_truths ("Launch by tuesday or monday".toList),
      tr.key = "launch_date".toList → tr.value = pyCapitalize ("tuesday".toList)) ∧
    pyCapitalize ("tuesday".toList) = "Tuesday".toList := by
  have hocc : occursWB (low ("Launch by tuesday or monday".toList)) 10 ("tuesday".toList) :=
    ⟨"launch by ".toList, " or monday".toList, by decide, by decide,
      show isWordChar ' ' = false by decide,
      by
        intro c hc
        have hc2 : ' ' = c := by simpa using hc
        rcases hc2 with rfl
        decide⟩
  have hmin : ∀ (j : Nat) (e : Str), e ∈ DAYS →
      occursWB (low ("Launch by tuesday or monday".toList)) j e → 10 ≤ j := by
    intro j e he ho
    by_contra hlt
    have hj : j < 10 := by omega
    have htake := occursWB_take _ j e ho
    have hbad : ∀ j' < 10, ∀ e' ∈ DAYS,
        (((low ("Launch by tuesday or monday".toList)).drop j').take e'.length ≠ e') := by
      decide
    exact hbad j hj e he htake
  have h := weekday_first_occurrence ("Launch by tuesday or monday".toList) 10
    ("tuesday".toList) (by decide) hocc hmin
  exact ⟨by decide, hocc, h.1, h.2.1, by decide⟩

example : extract_truths ("Launch Friday.".toList) =
    [⟨"launch_date".toList, "Friday".toList⟩] := by decide

example : extract_truths ("Priority: P0".toList) =
    [⟨"priority".toList, "P0".toList⟩] := by decide

example : extract_truths ("priority - high".toList) =
    [⟨"priority".toList, "HIGH".toList⟩] := by decide

example : findPriorityClaim (low ("priority - high".toList)) = none := by decide
